import Mathlib

/-!
Verification development for the garment-sketch colorization core of the
pantone-vision-v2 repository.

The core under verification is `universal_garment_colorizer` in
`universal_colorizer.py` (edge detection, enclosed-region extraction,
region filtering, skin exclusion, morphological cleanup, element-region
detection and brightness-preserving recoloring), together with the
anatomical exclusion step of `_basic_colorization` in
`FIXED_PRODUCTION_SERVER_backup_20250907_173429.py`.

Modelling conventions:
* An image is a flat row-major list of RGB triples plus its height and
  width (the source works on numpy arrays of shape (h, w, 3)).
* A boolean h×w mask is embedded as a natural number ("bitboard"): bit
  `y*w + x` is pixel `(y, x)`.  `np.logical_and`/`or`/`not`,
  `cv2.bitwise_*` become `&&&`, `|||`, and-not (`diffBB`); shifting the board
  implements the structuring-element translations used by
  `scipy.ndimage.binary_dilation` / `binary_erosion` / `binary_closing`.
* Python float arithmetic (`0.6 + brightness*0.4`, `width*0.15`, …) is
  modelled by exact rational/integer arithmetic; `int(...)` on a
  nonnegative float is integer division (truncation), as in the source.
* Connected-component labeling (`cv2.connectedComponents` /
  `scipy.ndimage.label`) is embedded as an exhaustive scan that grows
  each component from its first pixel by repeated neighbour expansion;
  the OpenCV path uses 8-connectivity, the scipy path 4-connectivity
  (the default structuring element of `scipy.ndimage.label` is the
  4-connected cross).
-/

namespace PV

/-- Single-pixel board: bit `i` set (`1 <<< i`, kept in shift form so
that the kernel evaluates it as a bignum shift). -/
def bitBB (i : Nat) : Nat := 1 <<< i

/-- Board with every pixel of the h×w grid set (`np.ones`-like). -/
def fullBB (h w : Nat) : Nat := (1 <<< (h * w)) - 1

theorem bitBB_eq (i : Nat) : bitBB i = 2 ^ i := by
  unfold bitBB
  rw [Nat.shiftLeft_eq, one_mul]

theorem fullBB_eq (h w : Nat) : fullBB h w = 2 ^ (h * w) - 1 := by
  unfold fullBB
  rw [Nat.shiftLeft_eq, one_mul]

/-- Board of the pixels of row `y` (used for the border test of
`universal_colorizer.py` step 5). -/
def rowBB (w y : Nat) : Nat := (2 ^ w - 1) <<< (y * w)

/-- Board of the pixels of column `x` (rows `0..h-1`). -/
def colBB : Nat → Nat → Nat → Nat
  | 0, _, _ => 0
  | h + 1, w, x => colBB h w x ||| bitBB (h * w + x)

/-- `border_mask` of `universal_colorizer.py` lines 142-146: first and
last row, first and last column. -/
def borderBB (h w : Nat) : Nat :=
  rowBB w 0 ||| rowBB w (h - 1) ||| colBB h w 0 ||| colBB h w (w - 1)

/-- Pixel count of a board over the h×w grid (`np.sum(mask > 0)` /
`cv2.countNonZero`). -/
def areaBB (n S : Nat) : Nat :=
  ((Finset.range n).filter (fun i => S.testBit i = true)).card

/-- Board inclusion, pixelwise. -/
def subBB (S T : Nat) : Prop := ∀ i, S.testBit i = true → T.testBit i = true

theorem testBit_bitBB (i j : Nat) : (bitBB i).testBit j = decide (i = j) := by
  rw [bitBB_eq]
  exact Nat.testBit_two_pow

theorem testBit_fullBB (h w i : Nat) :
    (fullBB h w).testBit i = decide (i < h * w) := by
  rw [fullBB_eq]
  exact Nat.testBit_two_pow_sub_one (h * w) i

theorem testBit_fullBB_true {h w i : Nat} (hi : i < h * w) :
    (fullBB h w).testBit i = true := by
  rw [testBit_fullBB]; exact decide_eq_true hi

theorem testBit_rowBB (w y i : Nat) :
    (rowBB w y).testBit i = (decide (y * w ≤ i) && decide (i < y * w + w)) := by
  unfold rowBB
  rw [Nat.testBit_shiftLeft, Nat.testBit_two_pow_sub_one]
  rcases Nat.lt_or_ge i (y * w) with h | h
  · simp [Nat.not_le.mpr h, Nat.le_of_lt h]
  · have : i - y * w < w ↔ i < y * w + w := by omega
    simp [h, this]

theorem testBit_colBB (h w x i : Nat) :
    (colBB h w x).testBit i = true ↔ ∃ y, y < h ∧ i = y * w + x := by
  induction h with
  | zero => simp [colBB]
  | succ h ih =>
    unfold colBB
    rw [Nat.testBit_lor, Bool.or_eq_true, ih, testBit_bitBB]
    constructor
    · rintro (⟨y, hy, rfl⟩ | hb)
      · exact ⟨y, Nat.lt_succ_of_lt hy, rfl⟩
      · exact ⟨h, Nat.lt_succ_self h, (of_decide_eq_true hb).symm⟩
    · rintro ⟨y, hy, rfl⟩
      rcases Nat.lt_succ_iff_lt_or_eq.mp hy with hy' | rfl
      · exact Or.inl ⟨y, hy', rfl⟩
      · exact Or.inr (decide_eq_true rfl)

/-- A board bounded by the grid has no bits at or beyond `h*w`. -/
theorem testBit_lt_of_lt_two_pow {n S i : Nat} (hS : S < 2 ^ n)
    (hb : S.testBit i = true) : i < n := by
  by_contra hge
  have : S < 2 ^ i := lt_of_lt_of_le hS (Nat.pow_le_pow_right (by norm_num) (Nat.le_of_not_lt hge))
  rw [Nat.testBit_lt_two_pow this] at hb
  exact Bool.false_ne_true hb

theorem land_lt_two_pow_left {n S T : Nat} (hS : S < 2 ^ n) : S &&& T < 2 ^ n := by
  have h1 : S &&& T ≤ S := Nat.and_le_left
  exact lt_of_le_of_lt h1 hS

theorem lor_lt_two_pow {n S T : Nat} (hS : S < 2 ^ n) (hT : T < 2 ^ n) :
    S ||| T < 2 ^ n := Nat.or_lt_two_pow hS hT

theorem ldiff_lt_two_pow {n S T : Nat} (hS : S < 2 ^ n) (hT : T < 2 ^ n) :
    S.ldiff T < 2 ^ n :=
  Nat.bitwise_lt_two_pow hS hT

/-- Board difference `a AND NOT b` on the h×w grid
(`np.logical_and(a, ~b)` / `cv2.bitwise_and(a, cv2.bitwise_not(b))`).
Written with `&&&`/`^^^` (kernel-accelerated bignum operations) instead
of `Nat.ldiff`. -/
def diffBB (h w a b : Nat) : Nat := a &&& (b ^^^ fullBB h w)

theorem diffBB_lt {h w a b : Nat} (ha : a < 2 ^ (h * w)) :
    diffBB h w a b < 2 ^ (h * w) :=
  lt_of_le_of_lt Nat.and_le_left ha

theorem testBit_diffBB {h w a b : Nat} (ha : a < 2 ^ (h * w)) (i : Nat) :
    (diffBB h w a b).testBit i = (a.testBit i && !(b.testBit i)) := by
  unfold diffBB
  rw [Nat.testBit_land, Nat.testBit_xor, testBit_fullBB]
  rcases Nat.lt_or_ge i (h * w) with hlt | hge
  · rw [decide_eq_true hlt]
    cases a.testBit i <;> cases b.testBit i <;> rfl
  · have hA : a.testBit i = false := Nat.testBit_lt_two_pow
      (lt_of_lt_of_le ha (Nat.pow_le_pow_right (by norm_num) hge))
    rw [hA]
    rfl

theorem fullBB_lt (h w : Nat) : fullBB h w < 2 ^ (h * w) := by
  rw [fullBB_eq]
  exact Nat.sub_lt (Nat.pos_pow_of_pos _ (by norm_num)) (by norm_num)

theorem bitBB_lt {h w i : Nat} (hi : i < h * w) : bitBB i < 2 ^ (h * w) := by
  rw [bitBB_eq]
  exact Nat.pow_lt_pow_right (by norm_num) hi

theorem colBB_lt {h w x : Nat} (hx : x < w) : colBB h w x < 2 ^ (h * w) := by
  induction h with
  | zero =>
    simp only [colBB]
    exact Nat.pos_pow_of_pos (0 * w) (by norm_num)
  | succ h ih =>
    unfold colBB
    have h1 : colBB h w x < 2 ^ ((h + 1) * w) := by
      refine lt_of_lt_of_le ih (Nat.pow_le_pow_right (by norm_num) ?_)
      exact Nat.mul_le_mul_right w (Nat.le_succ h)
    have h2 : bitBB (h * w + x) < 2 ^ ((h + 1) * w) := by
      apply bitBB_lt
      calc h * w + x < h * w + w := by omega
        _ = (h + 1) * w := by ring
    exact lor_lt_two_pow h1 h2

theorem rowBB_lt {h w y : Nat} (hy : y < h) : rowBB w y < 2 ^ (h * w) := by
  unfold rowBB
  rw [Nat.shiftLeft_eq]
  have h1 : (2 ^ w - 1) * 2 ^ (y * w) < 2 ^ w * 2 ^ (y * w) := by
    exact (Nat.mul_lt_mul_right (Nat.pos_pow_of_pos _ (by norm_num))).mpr
      (Nat.sub_lt (Nat.pos_pow_of_pos _ (by norm_num)) (by norm_num))
  refine lt_of_lt_of_le h1 ?_
  rw [← Nat.pow_add]
  apply Nat.pow_le_pow_right (by norm_num)
  calc w + y * w = (y + 1) * w := by ring
    _ ≤ h * w := Nat.mul_le_mul_right w hy

theorem borderBB_lt {h w : Nat} (hh : 0 < h) (hw : 0 < w) :
    borderBB h w < 2 ^ (h * w) := by
  unfold borderBB
  have hr0 : rowBB w 0 < 2 ^ (h * w) := rowBB_lt hh
  have hr1 : rowBB w (h - 1) < 2 ^ (h * w) := rowBB_lt (by omega)
  have hc0 : colBB h w 0 < 2 ^ (h * w) := colBB_lt hw
  have hc1 : colBB h w (w - 1) < 2 ^ (h * w) := colBB_lt (by omega)
  exact lor_lt_two_pow (lor_lt_two_pow (lor_lt_two_pow hr0 hr1) hc0) hc1

/-! Directional one-pixel translations of a board.  `shS` moves every
pixel one row down, `shN` one row up, `shE` one column right, `shW` one
column left; pixels pushed off the grid disappear and nothing enters
from outside (this is exactly how `scipy.ndimage` treats the outside of
the array with `border_value=0`). -/

/-- Shift south: pixel `(y, x)` of the result is pixel `(y-1, x)` of `S`. -/
def shS (h w S : Nat) : Nat := (S <<< w) &&& fullBB h w

/-- Shift north: pixel `(y, x)` of the result is pixel `(y+1, x)` of `S`. -/
def shN (w S : Nat) : Nat := S >>> w

/-- Shift east: pixel `(y, x)` of the result is pixel `(y, x-1)` of `S`. -/
def shE (h w S : Nat) : Nat := diffBB h w ((S <<< 1) &&& fullBB h w) (colBB h w 0)

/-- Shift west: pixel `(y, x)` of the result is pixel `(y, x+1)` of `S`. -/
def shW (h w S : Nat) : Nat := diffBB h w (S >>> 1) (colBB h w (w - 1))

theorem colBB_mod {h w x j : Nat} (hw : 0 < w) (hx : x < w) (hj : j < h * w) :
    (colBB h w x).testBit j = true ↔ j % w = x := by
  rw [testBit_colBB]
  constructor
  · rintro ⟨y, _, rfl⟩
    rw [Nat.mul_comm, Nat.mul_add_mod]
    exact Nat.mod_eq_of_lt hx
  · intro hmod
    refine ⟨j / w, ?_, ?_⟩
    · exact Nat.div_lt_of_lt_mul (by rwa [Nat.mul_comm] at hj)
    · conv_lhs => rw [← Nat.div_add_mod j w]
      rw [hmod, Nat.mul_comm]

theorem testBit_shS {h w S j : Nat} :
    (shS h w S).testBit j = true ↔ j < h * w ∧ w ≤ j ∧ S.testBit (j - w) = true := by
  unfold shS
  rw [Nat.testBit_land, testBit_fullBB, Nat.testBit_shiftLeft]
  simp only [Bool.and_eq_true, decide_eq_true_eq, ge_iff_le]
  tauto

theorem testBit_shN {w S j : Nat} :
    (shN w S).testBit j = true ↔ S.testBit (w + j) = true := by
  unfold shN
  rw [Nat.testBit_shiftRight]

theorem testBit_shE {h w S j : Nat} (hw : 0 < w) :
    (shE h w S).testBit j = true ↔
      j < h * w ∧ j % w ≠ 0 ∧ S.testBit (j - 1) = true := by
  unfold shE
  rw [testBit_diffBB (Nat.and_lt_two_pow _ (fullBB_lt h w)), Nat.testBit_land,
    testBit_fullBB, Nat.testBit_shiftLeft]
  simp only [Bool.and_eq_true, Bool.not_eq_true', decide_eq_true_eq, ge_iff_le]
  constructor
  · rintro ⟨⟨⟨h1, h2⟩, h3⟩, h4⟩
    have hcol : ¬ (colBB h w 0).testBit j = true := by simp [h4]
    rw [colBB_mod hw hw h3] at hcol
    exact ⟨h3, hcol, h2⟩
  · rintro ⟨h3, hmod, h2⟩
    have h1 : 1 ≤ j := by
      rcases Nat.eq_zero_or_pos j with rfl | h; · simp at hmod
      · exact h
    refine ⟨⟨⟨h1, h2⟩, h3⟩, ?_⟩
    by_contra hcol
    rw [Bool.not_eq_false, colBB_mod hw hw h3] at hcol
    exact hmod hcol

theorem testBit_shW {h w S j : Nat} (hw : 0 < w) (hS : S < 2 ^ (h * w)) :
    (shW h w S).testBit j = true ↔
      j % w ≠ w - 1 ∧ S.testBit (j + 1) = true := by
  unfold shW
  have hsr : S >>> 1 < 2 ^ (h * w) := by
    rw [Nat.shiftRight_eq_div_pow]
    exact lt_of_le_of_lt (Nat.div_le_self _ _) hS
  rw [testBit_diffBB hsr, Nat.testBit_shiftRight]
  simp only [Bool.and_eq_true, Bool.not_eq_true']
  have h1 : 1 + j = j + 1 := by omega
  rw [h1]
  constructor
  · rintro ⟨hb, hcol⟩
    have hj : j + 1 < h * w := testBit_lt_of_lt_two_pow hS hb
    have : ¬ (colBB h w (w - 1)).testBit j = true := by simp [hcol]
    rw [colBB_mod hw (by omega) (by omega)] at this
    exact ⟨this, hb⟩
  · rintro ⟨hmod, hb⟩
    have hj : j + 1 < h * w := testBit_lt_of_lt_two_pow hS hb
    refine ⟨hb, ?_⟩
    by_contra hcol
    rw [Bool.not_eq_false, colBB_mod hw (by omega) (by omega)] at hcol
    exact hmod hcol

theorem shS_lt {h w S : Nat} : shS h w S < 2 ^ (h * w) :=
  Nat.and_lt_two_pow _ (fullBB_lt h w)

theorem shN_lt {h w S : Nat} (hS : S < 2 ^ (h * w)) : shN w S < 2 ^ (h * w) := by
  unfold shN
  rw [Nat.shiftRight_eq_div_pow]
  exact lt_of_le_of_lt (Nat.div_le_self _ _) hS

theorem shE_lt {h w S : Nat} (hw : 0 < w) : shE h w S < 2 ^ (h * w) :=
  diffBB_lt (Nat.and_lt_two_pow _ (fullBB_lt h w))

theorem shW_lt {h w S : Nat} (hw : 0 < w) (hS : S < 2 ^ (h * w)) :
    shW h w S < 2 ^ (h * w) := by
  unfold shW
  refine diffBB_lt ?_
  rw [Nat.shiftRight_eq_div_pow]
  exact lt_of_le_of_lt (Nat.div_le_self _ _) hS

/-- 4-adjacency on row-major indices: same column and adjacent rows, or
same row and adjacent columns (the cross structuring element that
`scipy.ndimage.label` uses by default). -/
def adj4 (w i j : Nat) : Prop :=
  (i / w = j / w ∧ (i % w + 1 = j % w ∨ j % w + 1 = i % w)) ∨
  (i % w = j % w ∧ (i / w + 1 = j / w ∨ j / w + 1 = i / w))

/-- 8-adjacency on row-major indices: distinct pixels whose rows and
columns each differ by at most one (`cv2.connectedComponents` default). -/
def adj8 (w i j : Nat) : Prop :=
  i ≠ j ∧
  (i / w = j / w ∨ i / w + 1 = j / w ∨ j / w + 1 = i / w) ∧
  (i % w = j % w ∨ i % w + 1 = j % w ∨ j % w + 1 = i % w)

instance (w i j : Nat) : Decidable (adj4 w i j) := by unfold adj4; infer_instance

instance (w i j : Nat) : Decidable (adj8 w i j) := by unfold adj8; infer_instance

theorem adj4_symm {w i j : Nat} (h : adj4 w i j) : adj4 w j i := by
  unfold adj4 at *; tauto

theorem adj8_symm {w i j : Nat} (h : adj8 w i j) : adj8 w j i := by
  unfold adj8 at *; tauto

/-- Union of the four cross-neighbour translates (one dilation step with
the 4-connected structuring element). -/
def nbr4 (h w S : Nat) : Nat :=
  shS h w S ||| shN w S ||| shE h w S ||| shW h w S

/-- Union of the eight box-neighbour translates. -/
def nbr8 (h w S : Nat) : Nat :=
  nbr4 h w S ||| shE h w (shS h w S) ||| shW h w (shS h w S) |||
    shE h w (shN w S) ||| shW h w (shN w S)

/-- One neighbour step for the connectivity selected by `conn8`
(`true` on the OpenCV path, `false` on the scipy fallback path). -/
def nbrBB (conn8 : Bool) (h w S : Nat) : Nat :=
  if conn8 then nbr8 h w S else nbr4 h w S

def adjC (conn8 : Bool) (w i j : Nat) : Prop :=
  if conn8 then adj8 w i j else adj4 w i j

instance (conn8 : Bool) (w i j : Nat) : Decidable (adjC conn8 w i j) := by
  unfold adjC; infer_instance

theorem adjC_symm {conn8 : Bool} {w i j : Nat} (h : adjC conn8 w i j) :
    adjC conn8 w j i := by
  unfold adjC at *
  cases conn8
  · exact adj4_symm h
  · exact adj8_symm h

theorem idx_div {w y x : Nat} (hx : x < w) : (y * w + x) / w = y := by
  rw [Nat.mul_comm, Nat.mul_add_div (by omega)]
  simp [Nat.div_eq_of_lt hx]

theorem idx_mod {w y x : Nat} (hx : x < w) : (y * w + x) % w = x := by
  rw [Nat.mul_comm, Nat.mul_add_mod]
  exact Nat.mod_eq_of_lt hx

theorem idx_divW {w y x : Nat} (hx : x < w) : (w * y + x) / w = y := by
  rw [Nat.mul_add_div (by omega)]
  simp [Nat.div_eq_of_lt hx]

theorem idx_modW {w y x : Nat} (hx : x < w) : (w * y + x) % w = x := by
  rw [Nat.mul_add_mod]
  exact Nat.mod_eq_of_lt hx

theorem relE {w i j : Nat} (hw : 0 < w) :
    (i / w = j / w ∧ i % w + 1 = j % w) ↔ (j = i + 1 ∧ j % w ≠ 0) := by
  constructor
  · rintro ⟨hr, hc⟩
    have hi := Nat.div_add_mod i w
    have hj := Nat.div_add_mod j w
    rw [← hr] at hj
    omega
  · rintro ⟨rfl, hnz⟩
    have hd : i % w < w := Nat.mod_lt i hw
    have hi := Nat.div_add_mod i w
    have hiw : i % w + 1 < w ∨ i % w + 1 = w := by omega
    rcases hiw with hlt | heq
    · have h1 : i + 1 = w * (i / w) + (i % w + 1) := by omega
      rw [h1, idx_divW hlt, idx_modW hlt]
      exact ⟨rfl, rfl⟩
    · exfalso
      have hb : w * (i / w + 1) = w * (i / w) + w := by ring
      have h1 : i + 1 = w * (i / w + 1) + 0 := by omega
      rw [h1, idx_modW hw] at hnz
      exact hnz rfl

theorem relS {w i j : Nat} (hw : 0 < w) :
    (i % w = j % w ∧ i / w + 1 = j / w) ↔ j = i + w := by
  constructor
  · rintro ⟨hc, hr⟩
    have hi := Nat.div_add_mod i w
    have hj := Nat.div_add_mod j w
    rw [← hr] at hj
    have hb : w * (i / w + 1) = w * (i / w) + w := by ring
    omega
  · rintro rfl
    have hd : i % w < w := Nat.mod_lt i hw
    have hi := Nat.div_add_mod i w
    have hb : w * (i / w + 1) = w * (i / w) + w := by ring
    have h1 : i + w = w * (i / w + 1) + i % w := by omega
    rw [h1, idx_divW hd, idx_modW hd]
    exact ⟨rfl, rfl⟩

theorem relSE {w i j : Nat} (hw : 0 < w) :
    (i / w + 1 = j / w ∧ i % w + 1 = j % w) ↔ (j = i + w + 1 ∧ j % w ≠ 0) := by
  constructor
  · rintro ⟨hr, hc⟩
    have hi := Nat.div_add_mod i w
    have hj := Nat.div_add_mod j w
    rw [← hr] at hj
    have hb : w * (i / w + 1) = w * (i / w) + w := by ring
    omega
  · rintro ⟨rfl, hnz⟩
    have hd : i % w < w := Nat.mod_lt i hw
    have hi := Nat.div_add_mod i w
    have hb : w * (i / w + 1) = w * (i / w) + w := by ring
    have hiw : i % w + 1 < w ∨ i % w + 1 = w := by omega
    rcases hiw with hlt | heq
    · have h1 : i + w + 1 = w * (i / w + 1) + (i % w + 1) := by omega
      rw [h1, idx_divW hlt, idx_modW hlt]
      exact ⟨rfl, rfl⟩
    · exfalso
      have hb2 : w * (i / w + 2) = w * (i / w) + 2 * w := by ring
      have h1 : i + w + 1 = w * (i / w + 2) + 0 := by omega
      rw [h1, idx_modW hw] at hnz
      exact hnz rfl

theorem relSW {w i j : Nat} (hw : 0 < w) :
    (i / w + 1 = j / w ∧ j % w + 1 = i % w) ↔ (j + 1 = i + w ∧ j % w ≠ w - 1) := by
  constructor
  · rintro ⟨hr, hc⟩
    have hi := Nat.div_add_mod i w
    have hj := Nat.div_add_mod j w
    rw [← hr] at hj
    have hd : i % w < w := Nat.mod_lt i hw
    have hb : w * (i / w + 1) = w * (i / w) + w := by ring
    omega
  · rintro ⟨hji, hnz⟩
    have hd : j % w < w := Nat.mod_lt j hw
    have hj := Nat.div_add_mod j w
    have hlt : j % w + 1 < w := by omega
    rcases Nat.eq_zero_or_pos (j / w) with hc0 | hc1
    · rw [hc0] at hj
      omega
    · obtain ⟨c, hc⟩ : ∃ c, j / w = c + 1 := ⟨j / w - 1, by omega⟩
      have hb : w * (j / w) = w * (j / w - 1) + w := by
        rw [hc, Nat.add_sub_cancel]; ring
      have h1 : i = w * (j / w - 1) + (j % w + 1) := by omega
      rw [h1, idx_divW hlt, idx_modW hlt]
      exact ⟨by omega, rfl⟩

theorem lor_true {a b i : Nat} :
    (a ||| b).testBit i = true ↔ a.testBit i = true ∨ b.testBit i = true := by
  rw [Nat.testBit_lor, Bool.or_eq_true]

theorem mod_succ_of_ne {w j : Nat} (hw : 0 < w) (h : j % w ≠ w - 1) :
    (j + 1) % w = j % w + 1 := by
  have hd : j % w < w := Nat.mod_lt j hw
  have hj := Nat.div_add_mod j w
  have h1 : j + 1 = w * (j / w) + (j % w + 1) := by omega
  rw [h1, idx_modW (by omega)]

theorem mod_succ_eq_zero {w j : Nat} (hw : 0 < w) (h : j % w = w - 1) :
    (j + 1) % w = 0 := by
  have hj := Nat.div_add_mod j w
  have hb : w * (j / w + 1) = w * (j / w) + w := by ring
  have h1 : j + 1 = w * (j / w + 1) + 0 := by omega
  rw [h1, idx_modW hw]

theorem last_mod {h w : Nat} (hh : 0 < h) (hw : 0 < w) :
    (h * w - 1) % w = w - 1 := by
  have hb : h * w = w * (h - 1) + w := by
    obtain ⟨k, hk⟩ : ∃ k, h = k + 1 := ⟨h - 1, by omega⟩
    rw [hk, Nat.add_sub_cancel]; ring
  have h1 : h * w - 1 = w * (h - 1) + (w - 1) := by omega
  rw [h1, idx_modW (by omega)]

theorem testBit_nbr4 {h w S j : Nat} (hw : 0 < w) (hS : S < 2 ^ (h * w)) :
    (nbr4 h w S).testBit j = true ↔
      j < h * w ∧ ∃ i, S.testBit i = true ∧ adj4 w i j := by
  unfold nbr4
  rw [lor_true, lor_true, lor_true, testBit_shS, testBit_shN, testBit_shE hw,
    testBit_shW hw hS]
  constructor
  · rintro (((⟨hjb, hwj, hb⟩ | hb) | ⟨hjb, hmod, hb⟩) | ⟨hmod, hb⟩)
    · -- south neighbour: source pixel is one row up
      refine ⟨hjb, j - w, hb, Or.inr ?_⟩
      have := (relS (i := j - w) (j := j) hw).mpr (by omega)
      exact ⟨this.1, Or.inl this.2⟩
    · -- north neighbour: source pixel is one row down
      have hib : w + j < h * w := testBit_lt_of_lt_two_pow hS hb
      refine ⟨by omega, w + j, hb, Or.inr ?_⟩
      have := (relS (i := j) (j := w + j) hw).mpr (by omega)
      exact ⟨this.1.symm, Or.inr (by omega)⟩
    · -- east neighbour: source pixel is one column left
      have hj1 : 1 ≤ j := by
        rcases Nat.eq_zero_or_pos j with rfl | h1
        · simp at hmod
        · exact h1
      refine ⟨hjb, j - 1, hb, Or.inl ?_⟩
      have := (relE (i := j - 1) (j := j) hw).mpr ⟨by omega, hmod⟩
      exact ⟨this.1, Or.inl this.2⟩
    · -- west neighbour: source pixel is one column right
      have hib : j + 1 < h * w := testBit_lt_of_lt_two_pow hS hb
      refine ⟨by omega, j + 1, hb, Or.inl ?_⟩
      have hsucc := mod_succ_of_ne hw hmod
      have := (relE (i := j) (j := j + 1) hw).mpr ⟨rfl, by omega⟩
      exact ⟨this.1.symm, Or.inr (by omega)⟩
  · rintro ⟨hjb, i, hb, (⟨hr, hc | hc⟩ | ⟨hc, hr | hr⟩)⟩
    · -- i is one column left of j
      obtain ⟨hji, hnz⟩ := (relE hw).mp ⟨hr, hc⟩
      refine Or.inl (Or.inr ⟨hjb, hnz, ?_⟩)
      rw [show j - 1 = i by omega]
      exact hb
    · -- i is one column right of j
      obtain ⟨hij, hinz⟩ := (relE (i := j) (j := i) hw).mp ⟨hr.symm, hc⟩
      refine Or.inr ⟨?_, ?_⟩
      · intro hjeq
        have := mod_succ_eq_zero hw hjeq
        rw [show j + 1 = i by omega] at this
        exact hinz this
      · rw [show j + 1 = i by omega]
        exact hb
    · -- i is one row above j
      obtain hji := (relS hw).mp ⟨hc, hr⟩
      refine Or.inl (Or.inl (Or.inl ⟨hjb, by omega, ?_⟩))
      rw [show j - w = i by omega]
      exact hb
    · -- i is one row below j
      obtain hij := (relS (i := j) (j := i) hw).mp ⟨hc.symm, hr⟩
      refine Or.inl (Or.inl (Or.inr ?_))
      rw [show w + j = i by omega]
      exact hb

theorem adj4_adj8 {w i j : Nat} (h : adj4 w i j) : adj8 w i j := by
  obtain ⟨hr, hc | hc⟩ | ⟨hc, hr | hr⟩ := h
  · exact ⟨by rintro rfl; omega, Or.inl hr, Or.inr (Or.inl hc)⟩
  · exact ⟨by rintro rfl; omega, Or.inl hr, Or.inr (Or.inr hc)⟩
  · exact ⟨by rintro rfl; omega, Or.inr (Or.inl hr), Or.inl hc⟩
  · exact ⟨by rintro rfl; omega, Or.inr (Or.inr hr), Or.inl hc⟩

theorem testBit_nbr8 {h w S j : Nat} (hw : 0 < w) (hS : S < 2 ^ (h * w)) :
    (nbr8 h w S).testBit j = true ↔
      j < h * w ∧ ∃ i, S.testBit i = true ∧ adj8 w i j := by
  unfold nbr8
  rw [lor_true, lor_true, lor_true, lor_true, testBit_nbr4 hw hS,
    testBit_shE (S := shS h w S) hw, testBit_shW (S := shS h w S) hw shS_lt,
    testBit_shE (S := shN w S) hw, testBit_shW (S := shN w S) hw (shN_lt hS)]
  rw [testBit_shS (j := j - 1), testBit_shS (j := j + 1),
    testBit_shN (j := j - 1), testBit_shN (j := j + 1)]
  constructor
  · rintro ((((⟨hjb, i, hb, h4⟩ | ⟨hjb, hmod, hjb1, hwj1, hb⟩) |
      ⟨hmod, hjb1, hwj1, hb⟩) | ⟨hjb, hmod, hb⟩) | ⟨hmod, hb⟩)
    · exact ⟨hjb, i, hb, adj4_adj8 h4⟩
    · -- south-east translate: source pixel is up-left
      refine ⟨hjb, j - 1 - w, hb, ?_⟩
      obtain ⟨hr, hc⟩ := (relSE (i := j - 1 - w) (j := j) hw).mpr ⟨by omega, hmod⟩
      exact ⟨by intro heq; omega, Or.inr (Or.inl hr), Or.inr (Or.inl hc)⟩
    · -- south-west translate: source pixel is up-right
      refine ⟨by omega, j + 1 - w, hb, ?_⟩
      obtain ⟨hr, hc⟩ := (relSW (i := j + 1 - w) (j := j) hw).mpr ⟨by omega, hmod⟩
      exact ⟨by intro heq; rw [heq] at hc; omega, Or.inr (Or.inl hr),
        Or.inr (Or.inr hc)⟩
    · -- north-east translate: source pixel is down-left
      have hj1 : 1 ≤ j := by
        rcases Nat.eq_zero_or_pos j with rfl | h1
        · simp at hmod
        · exact h1
      have hib : w + (j - 1) < h * w := testBit_lt_of_lt_two_pow hS hb
      have hd : j % w < w := Nat.mod_lt j hw
      have hmodi : (w + (j - 1)) % w = j % w - 1 := by
        rw [Nat.add_mod_left]
        obtain ⟨hr1, hc1⟩ := (relE (i := j - 1) (j := j) hw).mpr ⟨by omega, hmod⟩
        omega
      refine ⟨hjb, w + (j - 1), hb, ?_⟩
      obtain ⟨hr, hc⟩ := (relSW (i := j) (j := w + (j - 1)) hw).mpr
        ⟨by omega, by omega⟩
      exact ⟨by intro heq; rw [heq] at hc; omega, Or.inr (Or.inr hr),
        Or.inr (Or.inl hc)⟩
    · -- north-west translate: source pixel is down-right
      have hib : w + (j + 1) < h * w := testBit_lt_of_lt_two_pow hS hb
      have hmodi : (w + (j + 1)) % w = j % w + 1 := by
        rw [Nat.add_mod_left]
        exact mod_succ_of_ne hw hmod
      refine ⟨by omega, w + (j + 1), hb, ?_⟩
      obtain ⟨hr, hc⟩ := (relSE (i := j) (j := w + (j + 1)) hw).mpr
        ⟨by omega, by omega⟩
      exact ⟨by intro heq; omega, Or.inr (Or.inr hr), Or.inr (Or.inr hc)⟩
  · rintro ⟨hjb, i, hb, hne, hrow, hcol⟩
    have hib : i < h * w := testBit_lt_of_lt_two_pow hS hb
    have hdi : i % w < w := Nat.mod_lt i hw
    have hdj : j % w < w := Nat.mod_lt j hw
    have h0h : 0 < h := by
      rcases Nat.eq_zero_or_pos h with rfl | hh
      · simp at hjb
      · exact hh
    rcases hrow with hr | hr | hr
    · rcases hcol with hc | hc | hc
      · -- same row and column: contradiction with i ≠ j
        exfalso
        have hi := Nat.div_add_mod i w
        have hj := Nat.div_add_mod j w
        rw [hr] at hi
        exact hne (by omega)
      · exact Or.inl (Or.inl (Or.inl (Or.inl ⟨hjb, i, hb, Or.inl ⟨hr, Or.inl hc⟩⟩)))
      · exact Or.inl (Or.inl (Or.inl (Or.inl ⟨hjb, i, hb, Or.inl ⟨hr, Or.inr hc⟩⟩)))
    · rcases hcol with hc | hc | hc
      · exact Or.inl (Or.inl (Or.inl (Or.inl ⟨hjb, i, hb, Or.inr ⟨hc, Or.inl hr⟩⟩)))
      · -- i is up-left of j
        obtain ⟨hji, hnz⟩ := (relSE hw).mp ⟨hr, hc⟩
        refine Or.inl (Or.inl (Or.inl (Or.inr ⟨hjb, hnz, by omega, by omega, ?_⟩)))
        rw [show j - 1 - w = i by omega]
        exact hb
      · -- i is up-right of j
        obtain ⟨hji, hnz⟩ := (relSW hw).mp ⟨hr, hc⟩
        have hjw : j + 1 < h * w := by
          rcases Nat.lt_or_ge (j + 1) (h * w) with hlt | hge
          · exact hlt
          · exfalso
            have hje : j = h * w - 1 := by omega
            rw [hje, last_mod h0h hw] at hnz
            exact hnz rfl
        refine Or.inl (Or.inl (Or.inr ⟨hnz, hjw, by omega, ?_⟩))
        rw [show j + 1 - w = i by omega]
        exact hb
    · rcases hcol with hc | hc | hc
      · exact Or.inl (Or.inl (Or.inl (Or.inl ⟨hjb, i, hb, Or.inr ⟨hc, Or.inr hr⟩⟩)))
      · -- i is down-left of j
        obtain ⟨hij, hnz⟩ := (relSW (i := j) (j := i) hw).mp ⟨hr, hc⟩
        have hj1 : 1 ≤ j := by
          rcases Nat.eq_zero_or_pos j with rfl | h1
          · rw [Nat.zero_mod] at hc; omega
          · exact h1
        refine Or.inl (Or.inr ⟨hjb, by omega, ?_⟩)
        rw [show w + (j - 1) = i by omega]
        exact hb
      · -- i is down-right of j
        obtain ⟨hij, hnz⟩ := (relSE (i := j) (j := i) hw).mp ⟨hr, hc⟩
        refine Or.inr ⟨by omega, ?_⟩
        rw [show w + (j + 1) = i by omega]
        exact hb

/-- One expansion step of connected-component growth: neighbours of `S`
(under the selected connectivity) restricted to the candidate set. -/
theorem testBit_nbrBB {conn8 : Bool} {h w S j : Nat} (hw : 0 < w)
    (hS : S < 2 ^ (h * w)) :
    (nbrBB conn8 h w S).testBit j = true ↔
      j < h * w ∧ ∃ i, S.testBit i = true ∧ adjC conn8 w i j := by
  unfold nbrBB adjC
  cases conn8
  · simpa using testBit_nbr4 hw hS
  · simpa using testBit_nbr8 hw hS

end PV

namespace PV

/-- One growth step of connected-component extraction: adjoin the
candidate neighbours of the set grown so far. -/
def growStep (conn8 : Bool) (h w cand S : Nat) : Nat :=
  (S ||| nbrBB conn8 h w S) &&& cand

/-- Grow until stable, with explicit fuel. -/
def reachAux (conn8 : Bool) (h w cand : Nat) : Nat → Nat → Nat
  | 0, S => S
  | fuel + 1, S =>
    if growStep conn8 h w cand S = S then S
    else reachAux conn8 h w cand fuel (growStep conn8 h w cand S)

/-- Connected component of candidate pixel `i`: the stable result of
repeated neighbour expansion inside the candidate set.  This embeds the
region associated with one label of `cv2.connectedComponents`
(8-connectivity) or `scipy.ndimage.label` (4-connectivity). -/
def reachBB (conn8 : Bool) (h w cand i : Nat) : Nat :=
  reachAux conn8 h w cand (h * w) (bitBB i &&& cand)

/-- Single step of connectivity inside the candidate set. -/
def adjStep (conn8 : Bool) (w cand a b : Nat) : Prop :=
  cand.testBit b = true ∧ adjC conn8 w a b

theorem subBB_refl (S : Nat) : subBB S S := fun _ hb => hb

theorem subBB_trans {S T U : Nat} (h1 : subBB S T) (h2 : subBB T U) :
    subBB S U := fun i hb => h2 i (h1 i hb)

theorem eq_of_subBB_subBB {S T : Nat} (h1 : subBB S T) (h2 : subBB T S) :
    S = T := by
  apply Nat.eq_of_testBit_eq
  intro i
  rcases hb : S.testBit i with hv | hv
  · rcases hc : T.testBit i with hv2 | hv2
    · rfl
    · exact (Bool.false_ne_true (hb ▸ h2 i hc)).elim
  · exact (h1 i hb).symm

theorem growStep_lt {conn8 : Bool} {h w cand S : Nat} (hc : cand < 2 ^ (h * w)) :
    growStep conn8 h w cand S < 2 ^ (h * w) :=
  lt_of_le_of_lt Nat.and_le_right hc

theorem subBB_growStep {conn8 : Bool} {h w cand S : Nat}
    (hSc : subBB S cand) : subBB S (growStep conn8 h w cand S) := by
  intro i hb
  unfold growStep
  rw [Nat.testBit_land, Nat.testBit_lor, hb, hSc i hb]
  rfl

theorem growStep_sub_cand {conn8 : Bool} {h w cand S : Nat} :
    subBB (growStep conn8 h w cand S) cand := by
  intro i hb
  unfold growStep at hb
  rw [Nat.testBit_land, Bool.and_eq_true] at hb
  exact hb.2

/-- Membership in one growth step. -/
theorem testBit_growStep {conn8 : Bool} {h w cand S j : Nat} (hw : 0 < w)
    (hS : S < 2 ^ (h * w)) :
    (growStep conn8 h w cand S).testBit j = true ↔
      (S.testBit j = true ∨
        (j < h * w ∧ ∃ i, S.testBit i = true ∧ adjC conn8 w i j)) ∧
      cand.testBit j = true := by
  unfold growStep
  rw [Nat.testBit_land, Bool.and_eq_true, Nat.testBit_lor, Bool.or_eq_true,
    testBit_nbrBB hw hS]

/-- A stable set is closed under candidate adjacency. -/
theorem closed_of_growStep_eq {conn8 : Bool} {h w cand S : Nat} (hw : 0 < w)
    (hS : S < 2 ^ (h * w)) (hst : growStep conn8 h w cand S = S)
    {i j : Nat} (hi : S.testBit i = true) (hj : j < h * w)
    (hcj : cand.testBit j = true) (ha : adjC conn8 w i j) :
    S.testBit j = true := by
  rw [← hst]
  exact (testBit_growStep hw hS).mpr ⟨Or.inr ⟨hj, i, hi, ha⟩, hcj⟩

theorem areaBB_le (n S : Nat) : areaBB n S ≤ n := by
  unfold areaBB
  calc ((Finset.range n).filter _).card ≤ (Finset.range n).card :=
        Finset.card_le_card (Finset.filter_subset _ _)
    _ = n := Finset.card_range n

theorem areaBB_lt_of_ssub {n S T : Nat} (hT : T < 2 ^ n) (hsub : subBB S T)
    (hne : S ≠ T) : areaBB n S < areaBB n T := by
  unfold areaBB
  apply Finset.card_lt_card
  rw [Finset.ssubset_iff_of_subset]
  · obtain ⟨i, hdiff⟩ : ∃ i, S.testBit i ≠ T.testBit i := by
      by_contra hall
      push_neg at hall
      exact hne (Nat.eq_of_testBit_eq hall)
    have hTi : T.testBit i = true := by
      cases hb2 : S.testBit i with
      | false =>
        cases hb : T.testBit i with
        | false => exact absurd (hb2.trans hb.symm) hdiff
        | true => rfl
      | true => exact hsub i hb2
    have hSi : S.testBit i = false := by
      cases hb2 : S.testBit i with
      | false => rfl
      | true => exact absurd (hb2.trans hTi.symm) hdiff
    refine ⟨i, ?_, ?_⟩
    · rw [Finset.mem_filter, Finset.mem_range]
      exact ⟨testBit_lt_of_lt_two_pow hT hTi, hTi⟩
    · rw [Finset.mem_filter]
      rintro ⟨-, hb⟩
      rw [hSi] at hb
      exact Bool.false_ne_true hb
  · intro i hi
    rw [Finset.mem_filter, Finset.mem_range] at hi ⊢
    exact ⟨hi.1, hsub i hi.2⟩

theorem subBB_reachAux {conn8 : Bool} {h w cand : Nat} (fuel : Nat) (S : Nat)
    (hSc : subBB S cand) : subBB S (reachAux conn8 h w cand fuel S) := by
  induction fuel generalizing S with
  | zero => exact subBB_refl S
  | succ fuel ih =>
    unfold reachAux
    split
    · exact subBB_refl S
    · exact subBB_trans (subBB_growStep hSc) (ih _ growStep_sub_cand)

theorem reachAux_sub_cand {conn8 : Bool} {h w cand : Nat} (fuel : Nat)
    (S : Nat) (hSc : subBB S cand) :
    subBB (reachAux conn8 h w cand fuel S) cand := by
  induction fuel generalizing S with
  | zero => exact hSc
  | succ fuel ih =>
    unfold reachAux
    split
    · exact hSc
    · exact ih _ growStep_sub_cand

theorem reachAux_lt {conn8 : Bool} {h w cand : Nat} (fuel : Nat) (S : Nat)
    (hS : S < 2 ^ (h * w)) (hc : cand < 2 ^ (h * w)) :
    reachAux conn8 h w cand fuel S < 2 ^ (h * w) := by
  induction fuel generalizing S with
  | zero => exact hS
  | succ fuel ih =>
    unfold reachAux
    split
    · exact hS
    · exact ih _ (growStep_lt hc)

/-- With enough fuel the expansion reaches a fixed point: each
non-stable step strictly increases the pixel count, which is bounded by
the candidate count. -/
theorem reachAux_stable {conn8 : Bool} {h w cand : Nat} (hc : cand < 2 ^ (h * w)) :
    ∀ fuel S, subBB S cand → S < 2 ^ (h * w) →
      areaBB (h * w) cand ≤ areaBB (h * w) S + fuel →
      growStep conn8 h w cand (reachAux conn8 h w cand fuel S) =
        reachAux conn8 h w cand fuel S := by
  intro fuel
  induction fuel with
  | zero =>
    intro S hSc hS hfuel
    unfold reachAux
    by_contra hne
    have hlt : areaBB (h * w) S < areaBB (h * w) (growStep conn8 h w cand S) :=
      areaBB_lt_of_ssub (growStep_lt hc) (subBB_growStep hSc) (fun he => hne he.symm)
    have hle : areaBB (h * w) (growStep conn8 h w cand S) ≤ areaBB (h * w) cand := by
      unfold areaBB
      apply Finset.card_le_card
      intro i hi
      rw [Finset.mem_filter, Finset.mem_range] at hi ⊢
      exact ⟨hi.1, growStep_sub_cand i hi.2⟩
    omega
  | succ fuel ih =>
    intro S hSc hS hfuel
    unfold reachAux
    split
    · next hst => exact hst
    · next hne =>
      apply ih _ growStep_sub_cand (growStep_lt hc)
      have hlt : areaBB (h * w) S < areaBB (h * w) (growStep conn8 h w cand S) :=
        areaBB_lt_of_ssub (growStep_lt hc) (subBB_growStep hSc) (fun he => hne he.symm)
      omega

/-- The grown set is contained in any candidate-adjacency-closed set
containing the seed. -/
theorem reachAux_least {conn8 : Bool} {h w cand T : Nat} (hw : 0 < w)
    (hc : cand < 2 ^ (h * w))
    (hcl : ∀ i j, T.testBit i = true → j < h * w → cand.testBit j = true →
      adjC conn8 w i j → T.testBit j = true) :
    ∀ fuel S, S < 2 ^ (h * w) → subBB S T →
      subBB (reachAux conn8 h w cand fuel S) T := by
  intro fuel
  induction fuel with
  | zero => intro S _ hST; exact hST
  | succ fuel ih =>
    intro S hS hST
    unfold reachAux
    split
    · exact hST
    · apply ih _ (growStep_lt hc)
      intro j hb
      rw [testBit_growStep hw hS] at hb
      obtain ⟨hor, hcj⟩ := hb
      rcases hor with hj | ⟨hjb, i, hi, ha⟩
      · exact hST j hj
      · exact hcl i j (hST i hi) hjb hcj ha

/-- Every pixel of the grown set is connected to some seed pixel by a
chain of candidate-adjacency steps. -/
theorem reachAux_connected {conn8 : Bool} {h w cand : Nat} (hw : 0 < w)
    (hc : cand < 2 ^ (h * w)) :
    ∀ fuel S, S < 2 ^ (h * w) →
      ∀ j, (reachAux conn8 h w cand fuel S).testBit j = true →
        ∃ i, S.testBit i = true ∧
          Relation.ReflTransGen (adjStep conn8 w cand) i j := by
  intro fuel
  induction fuel with
  | zero =>
    intro S _ j hj
    exact ⟨j, hj, Relation.ReflTransGen.refl⟩
  | succ fuel ih =>
    intro S hS j hj
    unfold reachAux at hj
    split at hj
    · exact ⟨j, hj, Relation.ReflTransGen.refl⟩
    · obtain ⟨i1, hi1, hpath⟩ := ih _ (growStep_lt hc) j hj
      rw [testBit_growStep hw hS] at hi1
      obtain ⟨hor, hci1⟩ := hi1
      rcases hor with hi0 | ⟨hib, i0, hi0, ha⟩
      · exact ⟨i1, hi0, hpath⟩
      · exact ⟨i0, hi0, Relation.ReflTransGen.head ⟨hci1, ha⟩ hpath⟩

end PV

namespace PV

theorem testBit_seed {cand i k : Nat} :
    ((bitBB i &&& cand).testBit k = true) ↔ (k = i ∧ cand.testBit i = true) := by
  rw [Nat.testBit_land, Bool.and_eq_true, testBit_bitBB]
  constructor
  · rintro ⟨hd, hc⟩
    have := of_decide_eq_true hd
    exact ⟨this.symm, this ▸ hc⟩
  · rintro ⟨rfl, hc⟩
    exact ⟨decide_eq_true rfl, hc⟩

theorem seed_lt {h w cand i : Nat} (hc : cand < 2 ^ (h * w)) :
    bitBB i &&& cand < 2 ^ (h * w) :=
  lt_of_le_of_lt Nat.and_le_right hc

theorem seed_sub_cand {cand i : Nat} : subBB (bitBB i &&& cand) cand := by
  intro k hb
  obtain ⟨rfl, hc⟩ := testBit_seed.mp hb
  exact hc

theorem reachBB_lt {conn8 : Bool} {h w cand i : Nat} (hc : cand < 2 ^ (h * w)) :
    reachBB conn8 h w cand i < 2 ^ (h * w) :=
  reachAux_lt _ _ (seed_lt hc) hc

theorem reachBB_sub_cand {conn8 : Bool} {h w cand i : Nat} :
    subBB (reachBB conn8 h w cand i) cand :=
  reachAux_sub_cand _ _ seed_sub_cand

theorem mem_reachBB_self {conn8 : Bool} {h w cand i : Nat}
    (hci : cand.testBit i = true) :
    (reachBB conn8 h w cand i).testBit i = true :=
  subBB_reachAux _ _ seed_sub_cand i (testBit_seed.mpr ⟨rfl, hci⟩)

/-- The component is a fixed point of the growth step. -/
theorem reachBB_stable {conn8 : Bool} {h w cand i : Nat}
    (hc : cand < 2 ^ (h * w)) :
    growStep conn8 h w cand (reachBB conn8 h w cand i) =
      reachBB conn8 h w cand i := by
  apply reachAux_stable hc _ _ seed_sub_cand (seed_lt hc)
  have := areaBB_le (h * w) cand
  omega

/-- The component is closed under candidate adjacency. -/
theorem reachBB_closed {conn8 : Bool} {h w cand : Nat} (hw : 0 < w)
    (hc : cand < 2 ^ (h * w)) {i a b : Nat}
    (ha : (reachBB conn8 h w cand i).testBit a = true)
    (hcb : cand.testBit b = true) (hadj : adjC conn8 w a b) :
    (reachBB conn8 h w cand i).testBit b = true :=
  closed_of_growStep_eq hw (reachBB_lt hc) (reachBB_stable hc) ha
    (testBit_lt_of_lt_two_pow hc hcb) hcb hadj

/-- The component is the least candidate-adjacency-closed set containing
its seed pixel. -/
theorem reachBB_least {conn8 : Bool} {h w cand T i : Nat} (hw : 0 < w)
    (hc : cand < 2 ^ (h * w))
    (hcl : ∀ a b, T.testBit a = true → b < h * w → cand.testBit b = true →
      adjC conn8 w a b → T.testBit b = true)
    (hiT : T.testBit i = true) :
    subBB (reachBB conn8 h w cand i) T := by
  apply reachAux_least hw hc hcl _ _ (seed_lt hc)
  intro k hb
  obtain ⟨rfl, -⟩ := testBit_seed.mp hb
  exact hiT

theorem reachBB_connected {conn8 : Bool} {h w cand i j : Nat} (hw : 0 < w)
    (hc : cand < 2 ^ (h * w))
    (hj : (reachBB conn8 h w cand i).testBit j = true) :
    Relation.ReflTransGen (adjStep conn8 w cand) i j := by
  obtain ⟨k, hk, hpath⟩ := reachAux_connected hw hc _ _ (seed_lt hc) j hj
  obtain ⟨rfl, -⟩ := testBit_seed.mp hk
  exact hpath

theorem rtg_cand_last {conn8 : Bool} {w cand i b : Nat}
    (hp : Relation.ReflTransGen (adjStep conn8 w cand) i b) :
    b = i ∨ cand.testBit b = true := by
  induction hp with
  | refl => exact Or.inl rfl
  | tail _ hbc _ => exact Or.inr hbc.1

theorem rtg_symm {conn8 : Bool} {w cand i j : Nat}
    (hci : cand.testBit i = true)
    (hp : Relation.ReflTransGen (adjStep conn8 w cand) i j) :
    Relation.ReflTransGen (adjStep conn8 w cand) j i := by
  induction hp with
  | refl => exact Relation.ReflTransGen.refl
  | tail hab hbc ih =>
    rename_i b c
    have hcb : cand.testBit b = true := by
      rcases rtg_cand_last hab with rfl | hcb
      · exact hci
      · exact hcb
    exact Relation.ReflTransGen.head ⟨hcb, adjC_symm hbc.2⟩ ih

/-- Walking a candidate-adjacency chain stays inside a closed set. -/
theorem rtg_mem_closed {conn8 : Bool} {h w cand R a b : Nat} (hw : 0 < w)
    (hc : cand < 2 ^ (h * w)) (hR : R < 2 ^ (h * w))
    (hst : growStep conn8 h w cand R = R)
    (ha : R.testBit a = true)
    (hp : Relation.ReflTransGen (adjStep conn8 w cand) a b) :
    R.testBit b = true := by
  induction hp with
  | refl => exact ha
  | tail _ hbc ih =>
    exact closed_of_growStep_eq hw hR hst ih
      (testBit_lt_of_lt_two_pow hc hbc.1) hbc.1 hbc.2

/-- Two pixels of the same component generate the same component: the
scan that embeds connected-component labeling may grow a region from
any of its pixels. -/
theorem reachBB_eq_of_mem {conn8 : Bool} {h w cand i j : Nat} (hw : 0 < w)
    (hc : cand < 2 ^ (h * w)) (hci : cand.testBit i = true)
    (hj : (reachBB conn8 h w cand i).testBit j = true) :
    reachBB conn8 h w cand j = reachBB conn8 h w cand i := by
  have hcj : cand.testBit j = true := reachBB_sub_cand j hj
  have hpath : Relation.ReflTransGen (adjStep conn8 w cand) i j :=
    reachBB_connected hw hc hj
  apply eq_of_subBB_subBB
  · -- reach j ⊆ reach i : reach i is closed and contains j
    exact reachBB_least hw hc
      (fun a b ha hb hcb hadj => reachBB_closed hw hc ha hcb hadj) hj
  · -- reach i ⊆ reach j : reach j is closed and contains i (reverse path)
    have hrev : Relation.ReflTransGen (adjStep conn8 w cand) j i :=
      rtg_symm hci hpath
    have hiRj : (reachBB conn8 h w cand j).testBit i = true :=
      rtg_mem_closed hw hc (reachBB_lt hc) (reachBB_stable hc)
        (mem_reachBB_self hcj) hrev
    exact reachBB_least hw hc
      (fun a b ha hb hcb hadj => reachBB_closed hw hc ha hcb hadj) hiRj

end PV

namespace PV

/-- Scan the pixels in row-major order; at each yet-unlabeled candidate
pixel grow its component.  This enumerates exactly the components that
`cv2.connectedComponents` / `scipy.ndimage.label` would label (label
order is irrelevant to the mask built from them). -/
def compListAux (conn8 : Bool) (h w cand : Nat) : List Nat → Nat → List Nat
  | [], _ => []
  | i :: rest, claimed =>
    if cand.testBit i = true ∧ claimed.testBit i = false then
      reachBB conn8 h w cand i ::
        compListAux conn8 h w cand rest (claimed ||| reachBB conn8 h w cand i)
    else compListAux conn8 h w cand rest claimed

def compList (conn8 : Bool) (h w cand : Nat) : List Nat :=
  compListAux conn8 h w cand (List.range (h * w)) 0

/-- The region test of `universal_colorizer.py` lines 140-161: area
strictly above `min_area = 500`, and empty intersection with the border
mask. -/
def regionPass (h w C : Nat) : Prop :=
  500 < areaBB (h * w) C ∧ C &&& borderBB h w = 0

instance (h w C : Nat) : Decidable (regionPass h w C) := by
  unfold regionPass; infer_instance

/-- Steps 4-5 of `universal_garment_colorizer`: the union of the
connected components of the candidate mask that pass the size test and
do not touch the image border (`garment_mask` after the loop at lines
132-161). -/
def garmentStep5 (conn8 : Bool) (h w cand : Nat) : Nat :=
  (compList conn8 h w cand).foldl
    (fun m C => if regionPass h w C then m ||| C else m) 0

theorem mem_compListAux {conn8 : Bool} {h w cand : Nat} :
    ∀ (L : List Nat) (claimed C : Nat), C ∈ compListAux conn8 h w cand L claimed →
      ∃ i, i ∈ L ∧ cand.testBit i = true ∧ C = reachBB conn8 h w cand i := by
  intro L
  induction L with
  | nil => intro claimed C hC; simp [compListAux] at hC
  | cons i rest ih =>
    intro claimed C hC
    unfold compListAux at hC
    split at hC
    · next hguard =>
      rcases List.mem_cons.mp hC with rfl | htail
      · exact ⟨i, List.mem_cons_self i rest, hguard.1, rfl⟩
      · obtain ⟨k, hk, hck, he⟩ := ih _ _ htail
        exact ⟨k, List.mem_cons_of_mem i hk, hck, he⟩
    · obtain ⟨k, hk, hck, he⟩ := ih _ _ hC
      exact ⟨k, List.mem_cons_of_mem i hk, hck, he⟩

theorem compListAux_covers {conn8 : Bool} {h w cand : Nat} :
    ∀ (L : List Nat) (claimed j : Nat), j ∈ L → cand.testBit j = true →
      claimed.testBit j = false →
      ∃ C ∈ compListAux conn8 h w cand L claimed, C.testBit j = true := by
  intro L
  induction L with
  | nil => intro claimed j hj; simp at hj
  | cons i rest ih =>
    intro claimed j hj hcj hclj
    unfold compListAux
    split
    · next hguard =>
      rcases List.mem_cons.mp hj with rfl | htail
      · exact ⟨reachBB conn8 h w cand j, List.mem_cons_self _ _,
          mem_reachBB_self hcj⟩
      · rcases hcl2 : (claimed ||| reachBB conn8 h w cand i).testBit j with hv | hv
        · obtain ⟨C, hC, hCj⟩ := ih _ j htail hcj hcl2
          exact ⟨C, List.mem_cons_of_mem _ hC, hCj⟩
        · rw [Nat.testBit_lor, hclj, Bool.false_or] at hcl2
          exact ⟨reachBB conn8 h w cand i, List.mem_cons_self _ _, hcl2⟩
    · next hguard =>
      rcases List.mem_cons.mp hj with rfl | htail
      · exact absurd ⟨hcj, hclj⟩ hguard
      · exact ih _ j htail hcj hclj

theorem testBit_foldl_or (L : List Nat) (p : Nat → Prop) [DecidablePred p] :
    ∀ (m0 j : Nat),
      ((L.foldl (fun m C => if p C then m ||| C else m) m0).testBit j = true) ↔
        (m0.testBit j = true ∨ ∃ C ∈ L, p C ∧ C.testBit j = true) := by
  induction L with
  | nil => intro m0 j; simp
  | cons C0 rest ih =>
    intro m0 j
    rw [List.foldl_cons]
    rw [ih]
    constructor
    · rintro (hm | ⟨C, hC, hp, hb⟩)
      · split at hm
        · next hp0 =>
          rcases lor_true.mp hm with hm0 | hb0
          · exact Or.inl hm0
          · exact Or.inr ⟨C0, List.mem_cons_self _ _, hp0, hb0⟩
        · exact Or.inl hm
      · exact Or.inr ⟨C, List.mem_cons_of_mem _ hC, hp, hb⟩
    · rintro (hm | ⟨C, hC, hp, hb⟩)
      · left
        split
        · exact lor_true.mpr (Or.inl hm)
        · exact hm
      · rcases List.mem_cons.mp hC with rfl | htail
        · left
          rw [if_pos hp]
          exact lor_true.mpr (Or.inr hb)
        · exact Or.inr ⟨C, htail, hp, hb⟩

/-- Pixel-level characterization of the step-5 garment mask: a pixel is
kept iff it is a candidate pixel whose own component passes the
area/border test. -/
theorem testBit_garmentStep5 {conn8 : Bool} {h w cand j : Nat} (hw : 0 < w)
    (hc : cand < 2 ^ (h * w)) :
    (garmentStep5 conn8 h w cand).testBit j = true ↔
      cand.testBit j = true ∧ regionPass h w (reachBB conn8 h w cand j) := by
  unfold garmentStep5
  rw [testBit_foldl_or]
  constructor
  · rintro (hm | ⟨C, hC, hp, hb⟩)
    · simp at hm
    · obtain ⟨i, hi, hci, rfl⟩ := mem_compListAux _ _ _ hC
      have hcj : cand.testBit j = true := reachBB_sub_cand j hb
      have := reachBB_eq_of_mem hw hc hci hb
      rw [← this] at hp
      exact ⟨hcj, hp⟩
  · rintro ⟨hcj, hp⟩
    have hjb : j < h * w := testBit_lt_of_lt_two_pow hc hcj
    obtain ⟨C, hC, hCj⟩ := compListAux_covers (List.range (h * w)) 0 j
      (List.mem_range.mpr hjb) hcj (Nat.zero_testBit j)
    refine Or.inr ⟨C, hC, ?_, hCj⟩
    obtain ⟨i, hi, hci, rfl⟩ := mem_compListAux _ _ _ hC
    rw [reachBB_eq_of_mem hw hc hci hCj] at hp
    exact hp

end PV

namespace PV

/-- Iterate a board transformation (`iterations=` of the scipy calls). -/
def iterN (f : Nat → Nat) : Nat → Nat → Nat
  | 0, S => S
  | n + 1, S => iterN f n (f S)

/-- Union of a list of boards. -/
def listOrBB (L : List Nat) : Nat := L.foldl (fun a b => a ||| b) 0

/-- Intersection of a list of boards, starting from the full grid. -/
def listAndBB (h w : Nat) (L : List Nat) : Nat :=
  L.foldl (fun a b => a &&& b) (fullBB h w)

theorem testBit_listOrBB {L : List Nat} {j : Nat} :
    (listOrBB L).testBit j = true ↔ ∃ B ∈ L, B.testBit j = true := by
  unfold listOrBB
  suffices hgen : ∀ (m0 : Nat),
      ((L.foldl (fun a b => a ||| b) m0).testBit j = true ↔
        m0.testBit j = true ∨ ∃ B ∈ L, B.testBit j = true) by
    rw [hgen 0]
    simp
  induction L with
  | nil => intro m0; simp
  | cons B0 rest ih =>
    intro m0
    rw [List.foldl_cons, ih]
    constructor
    · rintro (hm | ⟨B, hB, hb⟩)
      · rcases lor_true.mp hm with hm0 | hb0
        · exact Or.inl hm0
        · exact Or.inr ⟨B0, List.mem_cons_self _ _, hb0⟩
      · exact Or.inr ⟨B, List.mem_cons_of_mem _ hB, hb⟩
    · rintro (hm | ⟨B, hB, hb⟩)
      · exact Or.inl (lor_true.mpr (Or.inl hm))
      · rcases List.mem_cons.mp hB with rfl | htail
        · exact Or.inl (lor_true.mpr (Or.inr hb))
        · exact Or.inr ⟨B, htail, hb⟩

theorem foldl_and_keeps {B : Nat} :
    ∀ (L1 : List Nat) (m1 : Nat), subBB (L1.foldl (fun a b => a &&& b) (m1 &&& B)) B := by
  intro L1
  induction L1 with
  | nil =>
    intro m1 i hb
    simp only [List.foldl_nil] at hb
    rw [Nat.testBit_land, Bool.and_eq_true] at hb
    exact hb.2
  | cons B1 rest1 ih1 =>
    intro m1 i hb
    rw [List.foldl_cons] at hb
    have h1 : m1 &&& B &&& B1 = m1 &&& B1 &&& B := by
      rw [Nat.land_assoc, Nat.land_assoc, Nat.land_comm B B1]
    rw [h1] at hb
    exact ih1 _ i hb

theorem foldl_and_sub {B : Nat} :
    ∀ (L : List Nat) (m0 : Nat), B ∈ L →
      subBB (L.foldl (fun a b => a &&& b) m0) B := by
  intro L
  induction L with
  | nil => intro m0 hm; simp at hm
  | cons B0 rest ih =>
    intro m0 hm
    rw [List.foldl_cons]
    rcases List.mem_cons.mp hm with rfl | htail
    · exact foldl_and_keeps rest m0
    · exact ih (m0 &&& B0) htail

theorem listAndBB_sub {h w : Nat} {L : List Nat} {B : Nat} (hB : B ∈ L) :
    subBB (listAndBB h w L) B :=
  foldl_and_sub L (fullBB h w) hB

/-- Monotonicity of the four elementary shifts. -/
theorem shS_mono {h w S T : Nat} (hST : subBB S T) : subBB (shS h w S) (shS h w T) := by
  intro j hb
  unfold shS at *
  rw [Nat.testBit_land, Bool.and_eq_true, Nat.testBit_shiftLeft] at hb ⊢
  rcases hb with ⟨hs, hf⟩
  rw [Bool.and_eq_true] at hs
  exact ⟨by rw [Bool.and_eq_true]; exact ⟨hs.1, hST _ hs.2⟩, hf⟩

theorem shN_mono {w S T : Nat} (hST : subBB S T) : subBB (shN w S) (shN w T) := by
  intro j hb
  unfold shN at *
  rw [Nat.testBit_shiftRight] at hb ⊢
  exact hST _ hb

theorem shE_mono {h w S T : Nat} (hST : subBB S T) : subBB (shE h w S) (shE h w T) := by
  intro j hb
  unfold shE at *
  rw [testBit_diffBB (Nat.and_lt_two_pow _ (fullBB_lt h w)), Bool.and_eq_true,
    Nat.testBit_land, Bool.and_eq_true, Nat.testBit_shiftLeft] at hb ⊢
  rcases hb with ⟨⟨hs, hf⟩, hcol⟩
  rw [Bool.and_eq_true] at hs
  exact ⟨⟨by rw [Bool.and_eq_true]; exact ⟨hs.1, hST _ hs.2⟩, hf⟩, hcol⟩

theorem diffBB_mono {h w a a2 b : Nat} (h12 : subBB a a2) :
    subBB (diffBB h w a b) (diffBB h w a2 b) := by
  intro j hb
  unfold diffBB at *
  rw [Nat.testBit_land, Bool.and_eq_true] at hb ⊢
  exact ⟨h12 _ hb.1, hb.2⟩

theorem shW_mono {h w S T : Nat} (hST : subBB S T) : subBB (shW h w S) (shW h w T) := by
  unfold shW
  refine diffBB_mono ?_
  intro j hb
  rw [Nat.testBit_shiftRight] at hb ⊢
  exact hST _ hb

/-- Signed vertical shift (positive = down). -/
def shiftV (h w : Nat) (d : Int) (S : Nat) : Nat :=
  if 0 ≤ d then iterN (shS h w) d.toNat S else iterN (shN w) (-d).toNat S

/-- Signed horizontal shift (positive = right). -/
def shiftH (h w : Nat) (d : Int) (S : Nat) : Nat :=
  if 0 ≤ d then iterN (shE h w) d.toNat S else iterN (shW h w) (-d).toNat S

/-- Translation of a board by a signed offset `(dy, dx)`; content pushed
off the h×w grid disappears. -/
def shiftOff (h w : Nat) (dy dx : Int) (S : Nat) : Nat :=
  shiftH h w dx (shiftV h w dy S)

theorem iterN_mono {f g : Nat → Nat}
    (hmono : ∀ {S T : Nat}, subBB S T → subBB (f S) (g T))
    (n : Nat) {S T : Nat} (hST : subBB S T) :
    subBB (iterN f n S) (iterN g n T) := by
  induction n generalizing S T with
  | zero => exact hST
  | succ n ih => exact ih (hmono hST)

theorem shiftV_mono {h w : Nat} {d : Int} {S T : Nat} (hST : subBB S T) :
    subBB (shiftV h w d S) (shiftV h w d T) := by
  unfold shiftV
  split
  · exact iterN_mono (fun hst => shS_mono hst) _ hST
  · exact iterN_mono (fun hst => shN_mono hst) _ hST

theorem shiftH_mono {h w : Nat} {d : Int} {S T : Nat} (hST : subBB S T) :
    subBB (shiftH h w d S) (shiftH h w d T) := by
  unfold shiftH
  split
  · exact iterN_mono (fun hst => shE_mono hst) _ hST
  · exact iterN_mono (fun hst => shW_mono hst) _ hST

theorem shiftOff_mono {h w : Nat} {dy dx : Int} {S T : Nat} (hST : subBB S T) :
    subBB (shiftOff h w dy dx S) (shiftOff h w dy dx T) :=
  shiftH_mono (shiftV_mono hST)

theorem shiftOff_zero (h w : Nat) (S : Nat) : shiftOff h w 0 0 S = S := by
  unfold shiftOff shiftH shiftV
  simp [iterN, Int.toNat_zero]

end PV

namespace PV

/-- Offsets of one axis of the k×k all-ones structuring element, as
scipy centers it (origin at index `k/2`): values `a - k/2` for
`a < k`. -/
def boxLin (k : Nat) : List Int :=
  (List.range k).map (fun a : Nat => (a : Int) - ((k / 2 : Nat) : Int))

/-- Offsets of the k×k all-ones structuring element
(`np.ones((k, k))` in `universal_colorizer.py`). -/
def boxOffs (k : Nat) : List (Int × Int) :=
  (boxLin k).bind (fun dy => (boxLin k).map (fun dx => (dy, dx)))

/-- Dilation of a board by a structuring element given as offsets
(`scipy.ndimage.binary_dilation`, one iteration). -/
def dilateB (h w : Nat) (offs : List (Int × Int)) (S : Nat) : Nat :=
  listOrBB (offs.map (fun d => shiftOff h w d.1 d.2 S))

/-- Erosion with `border_value = 0`, scipy's default for
`binary_erosion`/`binary_closing`: a pixel survives only if every
structuring-element position lies inside the grid and on the board. -/
def erodeB (h w : Nat) (offs : List (Int × Int)) (S : Nat) : Nat :=
  listAndBB h w (offs.map (fun d => shiftOff h w (-d.1) (-d.2) S))

/-- Erosion as OpenCV's `erode` treats the border: structuring-element
positions outside the image do not constrain the pixel. -/
def cv2ErodeB (h w : Nat) (offs : List (Int × Int)) (S : Nat) : Nat :=
  listAndBB h w (offs.map (fun d =>
    shiftOff h w (-d.1) (-d.2) S |||
      diffBB h w (fullBB h w) (shiftOff h w (-d.1) (-d.2) (fullBB h w))))

theorem mem_boxLin {k : Nat} {d : Int} :
    d ∈ boxLin k ↔ -((k / 2 : Nat) : Int) ≤ d ∧ d ≤ (k : Int) - 1 - (k / 2 : Nat) := by
  unfold boxLin
  simp only [List.mem_map, List.mem_range]
  constructor
  · rintro ⟨a, ha, rfl⟩
    omega
  · rintro ⟨hlo, hhi⟩
    exact ⟨(d + (k / 2 : Nat)).toNat, by omega, by omega⟩

theorem boxLin_mono {k k' : Nat} (hk : k ≤ k') {d : Int} (hd : d ∈ boxLin k) :
    d ∈ boxLin k' := by
  rw [mem_boxLin] at hd ⊢
  omega

theorem mem_boxOffs {k : Nat} {d : Int × Int} :
    d ∈ boxOffs k ↔ d.1 ∈ boxLin k ∧ d.2 ∈ boxLin k := by
  unfold boxOffs
  rw [List.mem_bind]
  constructor
  · rintro ⟨dy, hdy, hmem⟩
    rw [List.mem_map] at hmem
    obtain ⟨dx, hdx, rfl⟩ := hmem
    exact ⟨hdy, hdx⟩
  · rintro ⟨h1, h2⟩
    exact ⟨d.1, h1, List.mem_map.mpr ⟨d.2, h2, by simp⟩⟩

theorem boxOffs_mono {k k' : Nat} (hk : k ≤ k') {d : Int × Int}
    (hd : d ∈ boxOffs k) : d ∈ boxOffs k' := by
  rw [mem_boxOffs] at hd ⊢
  exact ⟨boxLin_mono hk hd.1, boxLin_mono hk hd.2⟩

theorem zero_mem_boxOffs {k : Nat} (hk : 0 < k) :
    ((0 : Int), (0 : Int)) ∈ boxOffs k := by
  rw [mem_boxOffs]
  have : (0 : Int) ∈ boxLin k := by
    rw [mem_boxLin]
    constructor
    · omega
    · have := Nat.div_le_self k 2
      omega
  exact ⟨this, this⟩

theorem dilateB_mono {h w : Nat} {offs : List (Int × Int)} {S T : Nat}
    (hST : subBB S T) : subBB (dilateB h w offs S) (dilateB h w offs T) := by
  intro j hb
  unfold dilateB at *
  rw [testBit_listOrBB] at hb ⊢
  obtain ⟨B, hB, hBb⟩ := hb
  rw [List.mem_map] at hB
  obtain ⟨d, hd, rfl⟩ := hB
  exact ⟨shiftOff h w d.1 d.2 T, List.mem_map.mpr ⟨d, hd, rfl⟩,
    shiftOff_mono hST j hBb⟩

theorem dilateB_mono_offs {h w : Nat} {offs offs' : List (Int × Int)}
    (hsub : ∀ d ∈ offs, d ∈ offs') {S : Nat} :
    subBB (dilateB h w offs S) (dilateB h w offs' S) := by
  intro j hb
  unfold dilateB at *
  rw [testBit_listOrBB] at hb ⊢
  obtain ⟨B, hB, hBb⟩ := hb
  rw [List.mem_map] at hB
  obtain ⟨d, hd, rfl⟩ := hB
  exact ⟨shiftOff h w d.1 d.2 S, List.mem_map.mpr ⟨d, hsub d hd, rfl⟩, hBb⟩

theorem dilateB_extensive {h w : Nat} {offs : List (Int × Int)}
    (h0 : ((0 : Int), (0 : Int)) ∈ offs) (S : Nat) :
    subBB S (dilateB h w offs S) := by
  intro j hb
  unfold dilateB
  rw [testBit_listOrBB]
  refine ⟨shiftOff h w 0 0 S, List.mem_map.mpr ⟨(0, 0), h0, rfl⟩, ?_⟩
  rw [shiftOff_zero]
  exact hb

theorem iterN_add (f : Nat → Nat) (a b : Nat) (S : Nat) :
    iterN f (a + b) S = iterN f b (iterN f a S) := by
  induction a generalizing S with
  | zero => simp [iterN]
  | succ a ih =>
    have h1 : a + 1 + b = (a + b) + 1 := by omega
    rw [h1]
    show iterN f (a + b) (f S) = _
    rw [ih (f S)]
    rfl

theorem iterN_extensive {f : Nat → Nat} (hext : ∀ S, subBB S (f S))
    (hmono : ∀ {S T : Nat}, subBB S T → subBB (f S) (f T)) (n : Nat) (S : Nat) :
    subBB S (iterN f n S) := by
  induction n generalizing S with
  | zero => exact subBB_refl S
  | succ n ih => exact subBB_trans (hext S) (ih (f S))

/-- Fewer iterations of a smaller box dilation are contained in more
iterations of a larger box dilation: `skin_protection` only ever grows
the protected zone (weakly). -/
theorem iter_dilate_mono {h w k k' n n' : Nat} (hk : k ≤ k') (hk0 : 0 < k')
    (hn : n ≤ n') (S : Nat) :
    subBB (iterN (dilateB h w (boxOffs k)) n S)
      (iterN (dilateB h w (boxOffs k')) n' S) := by
  have hstep : subBB (iterN (dilateB h w (boxOffs k)) n S)
      (iterN (dilateB h w (boxOffs k')) n S) := by
    apply iterN_mono (g := dilateB h w (boxOffs k')) ?_ n (subBB_refl S)
    intro A B hAB
    exact subBB_trans (dilateB_mono hAB) (dilateB_mono_offs (fun d hd => boxOffs_mono hk hd))
  refine subBB_trans hstep ?_
  obtain ⟨m, rfl⟩ : ∃ m, n' = n + m := ⟨n' - n, by omega⟩
  rw [iterN_add]
  exact iterN_extensive (fun T => dilateB_extensive (zero_mem_boxOffs hk0) T)
    (fun hab => dilateB_mono hab) m _

end PV

namespace PV

theorem shiftOff_one_zero (h w S : Nat) : shiftOff h w 1 0 S = shS h w S := by
  unfold shiftOff shiftH shiftV
  norm_num [iterN]

theorem shiftOff_negone_zero (h w S : Nat) : shiftOff h w (-1) 0 S = shN w S := by
  unfold shiftOff shiftH shiftV
  norm_num [iterN]

theorem shiftOff_zero_one (h w S : Nat) : shiftOff h w 0 1 S = shE h w S := by
  unfold shiftOff shiftH shiftV
  norm_num [iterN]

theorem shiftOff_zero_negone (h w S : Nat) : shiftOff h w 0 (-1) S = shW h w S := by
  unfold shiftOff shiftH shiftV
  norm_num [iterN]

/-- Erosion with scipy's `border_value = 0` by a box of size at least 3
never keeps a border pixel: the structuring element would reach outside
the grid there.  This is why the final cleanup of
`universal_colorizer.py` (binary closing = dilation then erosion)
cannot introduce border pixels into the mask on the scipy path. -/
theorem erodeB_no_border {h w k S j : Nat} (hw : 0 < w) (hk : 3 ≤ k)
    (hS : S < 2 ^ (h * w))
    (hb : (erodeB h w (boxOffs k) S).testBit j = true) :
    (borderBB h w).testBit j = false := by
  have hterm : ∀ (d : Int × Int), d ∈ boxOffs k →
      (shiftOff h w (-d.1) (-d.2) S).testBit j = true := by
    intro d hd
    refine listAndBB_sub ?_ j hb
    exact List.mem_map.mpr ⟨d, hd, rfl⟩
  have hk2 : 1 ≤ k / 2 := by omega
  have hmem : ∀ (u v : Int), -1 ≤ u → u ≤ 1 → -1 ≤ v → v ≤ 1 →
      ((u, v) : Int × Int) ∈ boxOffs k := by
    intro u v h1 h2 h3 h4
    rw [mem_boxOffs]
    constructor <;> (rw [mem_boxLin]; constructor <;> omega)
  have hS0 : (shS h w S).testBit j = true := by
    have := hterm (-1, 0) (hmem _ _ (by norm_num) (by norm_num) (by norm_num) (by norm_num))
    simpa [shiftOff_one_zero] using this
  have hN0 : (shN w S).testBit j = true := by
    have := hterm (1, 0) (hmem _ _ (by norm_num) (by norm_num) (by norm_num) (by norm_num))
    simpa [shiftOff_negone_zero] using this
  have hE0 : (shE h w S).testBit j = true := by
    have := hterm (0, -1) (hmem _ _ (by norm_num) (by norm_num) (by norm_num) (by norm_num))
    simpa [shiftOff_zero_one] using this
  have hW0 : (shW h w S).testBit j = true := by
    have := hterm (0, 1) (hmem _ _ (by norm_num) (by norm_num) (by norm_num) (by norm_num))
    simpa [shiftOff_zero_negone] using this
  obtain ⟨hjb, hwj, -⟩ := testBit_shS.mp hS0
  have hN1 : w + j < h * w :=
    testBit_lt_of_lt_two_pow hS (testBit_shN.mp hN0)
  obtain ⟨-, hmodE, -⟩ := (testBit_shE hw).mp hE0
  obtain ⟨hmodW, -⟩ := (testBit_shW hw hS).mp hW0
  have h0h : 0 < h := by
    rcases Nat.eq_zero_or_pos h with rfl | hh
    · simp at hjb
    · exact hh
  cases hbb : (borderBB h w).testBit j with
  | false => rfl
  | true =>
    exfalso
    unfold borderBB at hbb
    rcases lor_true.mp hbb with hb3 | hc1
    · rcases lor_true.mp hb3 with hb2 | hc0
      · rcases lor_true.mp hb2 with hr0 | hr1
        · rw [testBit_rowBB] at hr0
          rw [Bool.and_eq_true, decide_eq_true_eq, decide_eq_true_eq] at hr0
          omega
        · rw [testBit_rowBB] at hr1
          rw [Bool.and_eq_true, decide_eq_true_eq, decide_eq_true_eq] at hr1
          have hb1 : (h - 1) * w = h * w - w := by
            obtain ⟨m, rfl⟩ : ∃ m, h = m + 1 := ⟨h - 1, by omega⟩
            rw [Nat.add_sub_cancel]
            ring_nf
            omega
          omega
      · rw [colBB_mod hw hw hjb] at hc0
        exact hmodE hc0
    · rw [colBB_mod hw (by omega) hjb] at hc1
      exact hmodW hc1

end PV

namespace PV

/-- RGB pixel, channels 0-255 (uint8 in the source arrays). -/
abbrev Pix := Nat × Nat × Nat

/-- Decoded image: height, width and the row-major pixel list
(`np.array(sketch)` of shape (h, w, 3)). -/
structure Img where
  h : Nat
  w : Nat
  pix : List Pix

/-- Well-formedness of a decoded image buffer. -/
def wfImg (img : Img) : Prop :=
  0 < img.h ∧ 0 < img.w ∧ img.pix.length = img.h * img.w

instance (img : Img) : Decidable (wfImg img) := by
  unfold wfImg
  infer_instance

/-- PIL `convert('L')` luma: `(19595 R + 38470 G + 7471 B + 0x8000) >> 16`
(ITU-R 601 weights in 16.16 fixed point, with rounding, as in Pillow's
`Convert.c`). -/
def luma (p : Pix) : Nat :=
  (19595 * p.1 + 38470 * p.2.1 + 7471 * p.2.2 + 32768) >>> 16

/-- Board of the pixels satisfying a per-pixel test, starting at index
`i0` (helper for `pixBB`). -/
def pixBBAux (p : Pix → Bool) : List Pix → Nat → Nat
  | [], _ => 0
  | px :: rest, i0 => (if p px then bitBB i0 else 0) ||| pixBBAux p rest (i0 + 1)

/-- Board of the pixels of the image satisfying a per-pixel test
(`np.*` comparisons producing boolean arrays in the source). -/
def pixBB (p : Pix → Bool) (pix : List Pix) : Nat := pixBBAux p pix 0

/-- Board from a per-coordinate test (zone assignments such as
`collar_mask[top_zone, w//4:3*w//4]`). -/
def coordBB (h w : Nat) (p : Nat → Nat → Bool) : Nat :=
  (List.range (h * w)).foldl
    (fun acc i => if p (i / w) (i % w) then acc ||| bitBB i else acc) 0

/-- Absolute channel difference (`np.abs(r.astype(int) - g.astype(int))`). -/
def chDiff (a b : Nat) : Nat := max a b - min a b

/-- The white-pixel test of `universal_colorizer.py` lines 101-108: all
three channels above `white_threshold` and all pairwise differences
below `color_variance`. -/
def whiteTest (wt cv : Nat) (p : Pix) : Bool :=
  decide (wt < p.1) && decide (wt < p.2.1) && decide (wt < p.2.2) &&
    decide (chDiff p.1 p.2.1 < cv) && decide (chDiff p.2.1 p.2.2 < cv) &&
    decide (chDiff p.1 p.2.2 < cv)

/-- The line test of line 85: grayscale intensity below 100. -/
def lineTest (p : Pix) : Bool := decide (luma p < 100)

/-- PIL `convert('HSV')` (Pillow follows `colorsys`, all channels scaled
to 0-255 with C integer division).  Every pixel this development reasons
about has either `maxc = minc` (hue and saturation 0) or hue exactly 0,
so the fine rounding of the hue wrap-around is immaterial here. -/
def pilHSV (p : Pix) : Nat × Nat × Nat :=
  let r := p.1
  let g := p.2.1
  let b := p.2.2
  let maxc := max r (max g b)
  let minc := min r (min g b)
  if maxc = minc then (0, 0, maxc)
  else
    let cr := maxc - minc
    let s := 255 * cr / maxc
    let rc := 255 * (maxc - r) / cr
    let gc := 255 * (maxc - g) / cr
    let bc := 255 * (maxc - b) / cr
    let hRaw : Int :=
      if r = maxc then (bc : Int) - (gc : Int)
      else if g = maxc then 510 + (rc : Int) - (bc : Int)
      else 1020 + (gc : Int) - (rc : Int)
    let hh := ((hRaw.emod 1530) / 6).toNat
    (hh, s, maxc)

/-- OpenCV 8-bit RGB→HSV: `V = max`, `S = round(255 (max-min)/max)`,
`H` = half the hue angle (0-179), rounding simplified to half-up.  Only
evaluated on achromatic pixels (`delta = 0`) in the theorems below. -/
def cv2HSV (p : Pix) : Nat × Nat × Nat :=
  let r := p.1
  let g := p.2.1
  let b := p.2.2
  let v := max r (max g b)
  let minc := min r (min g b)
  if v = 0 then (0, 0, 0)
  else
    let delta := v - minc
    let s := (255 * delta + v / 2) / v
    if delta = 0 then (0, s, v)
    else
      let num : Int :=
        if r = v then 60 * ((g : Int) - (b : Int))
        else if g = v then 120 * (delta : Int) + 60 * ((b : Int) - (r : Int))
        else 240 * (delta : Int) + 60 * ((r : Int) - (g : Int))
      let hh := (((num / (delta : Int)).emod 360 + 1) / 2).toNat
      (hh, s, v)

/-- Skin classification: OpenCV path (`cv2.inRange(hsv, [0,20,70],
[20,255,255])`, lines 169-171) or the scipy/PIL fallback (hue ≤ 20,
saturation ≥ 20, value ≥ 70, lines 190-195; the upper bounds 255 are
vacuous on uint8 data). -/
def skinTest (opencv : Bool) (p : Pix) : Bool :=
  let hsv := if opencv then cv2HSV p else pilHSV p
  decide (hsv.1 ≤ 20) && decide (20 ≤ hsv.2.1) && decide (70 ≤ hsv.2.2)

/-- `kernel_size = max(3, int(5 * skin_protection))` (line 174/198);
Python `int` truncates, and `5 * skin_protection ≥ 0`, so this is the
floor of `5 s`, written through num/den so that the kernel can evaluate
it (see `skinKernelSize_eq`). -/
def skinKernelSize (s : ℚ) : Nat := max 3 (Int.toNat ((5 * s.num) / (s.den : Int)))

/-- `iterations = max(1, int(2 * skin_protection))` (line 175/199). -/
def skinIterations (s : ℚ) : Nat := max 1 (Int.toNat ((2 * s.num) / (s.den : Int)))

end PV

namespace PV

/-- ASCII lower-casing of one character (`str.lower()`). -/
def toLowerCh (c : Char) : Char :=
  if 'A' ≤ c ∧ c ≤ 'Z' then Char.ofNat (c.toNat + 32) else c

/-- `needle` is an initial segment of `hay`. -/
def listStarts : List Char → List Char → Bool
  | [], _ => true
  | _ :: _, [] => false
  | a :: as, b :: bs => a = b && listStarts as bs

/-- Substring occurrence (`needle in hay` on Python strings). -/
def listHasSub (needle : List Char) : List Char → Bool
  | [] => listStarts needle []
  | b :: bs => listStarts needle (b :: bs) || listHasSub needle bs

def isDigitCh (c : Char) : Bool := decide ('0' ≤ c) && decide (c ≤ '9')

def isHexDigitCh (c : Char) : Bool :=
  isDigitCh c || (decide ('a' ≤ c) && decide (c ≤ 'f')) ||
    (decide ('A' ≤ c) && decide (c ≤ 'F'))

def hexDigitVal (c : Char) : Nat :=
  if isDigitCh c then c.toNat - '0'.toNat
  else if decide ('a' ≤ c) && decide (c ≤ 'f') then c.toNat - 'a'.toNat + 10
  else c.toNat - 'A'.toNat + 10

/-- Hex digits with single `_` separators between digits, as Python's
`int(s, 16)` accepts after the optional sign (PEP 515). -/
def hexDigitsVal : List Char → Nat → Bool → Option Nat
  | [], acc, seen => if seen then some acc else none
  | c :: rest, acc, seen =>
    if isHexDigitCh c then hexDigitsVal rest (16 * acc + hexDigitVal c) true
    else if c = '_' then
      match rest with
      | [] => none
      | c2 :: _ => if seen && isHexDigitCh c2 then hexDigitsVal rest acc true else none
    else none

/-- Python `int(s, 16)`: optional surrounding whitespace, optional sign,
then hex digits (underscore separators allowed); `none` models the
`ValueError` that the source catches. -/
def pyIntHex (cs : List Char) : Option Int :=
  let cs1 := (cs.dropWhile (fun c => c = ' ')).reverse
  let cs2 := (cs1.dropWhile (fun c => c = ' ')).reverse
  match cs2 with
  | '+' :: rest => (hexDigitsVal rest 0 false).map (fun n => (n : Int))
  | '-' :: rest => (hexDigitsVal rest 0 false).map (fun n => -(n : Int))
  | rest => (hexDigitsVal rest 0 false).map (fun n => (n : Int))

/-- `hex_color[i:i+2]` slices. -/
def slice2 (cs : List Char) (i : Nat) : List Char := (cs.drop i).take 2

/-- Maximal runs of decimal digits (`re.findall(r'\d+', s)`). -/
def digitRunsAux : List Char → List Char → List (List Char)
  | [], acc => if acc.isEmpty then [] else [acc.reverse]
  | c :: rest, acc =>
    if isDigitCh c then digitRunsAux rest (c :: acc)
    else if acc.isEmpty then digitRunsAux rest []
    else acc.reverse :: digitRunsAux rest []

def digitRuns (cs : List Char) : List (List Char) := digitRunsAux cs []

/-- Value of a run of decimal digits (Python `int`). -/
def digitsToNat (ds : List Char) : Nat :=
  ds.foldl (fun a c => 10 * a + (c.toNat - '0'.toNat)) 0

/-- Target color of one colorizer call: the parse at
`universal_colorizer.py` lines 46-67.  `TARGET_GRAY = (168,168,168)`
unless a hex `#...` string parses through its three character pairs, or
a string containing `rgb`/`(` yields at least three digit runs.  Any
exception inside the `try` (a failing `int(_, 16)`) falls back to the
default gray. -/
def parse_target_color : Option String → Int × Int × Int
  | none => (168, 168, 168)
  | some s =>
    let cs := s.data
    if cs.isEmpty then (168, 168, 168)
    else if cs.head? = some '#' then
      let hexc := cs.dropWhile (fun c => c = '#')
      match pyIntHex (slice2 hexc 0), pyIntHex (slice2 hexc 2),
          pyIntHex (slice2 hexc 4) with
      | some a, some b, some c => (a, b, c)
      | _, _, _ => (168, 168, 168)
    else if listHasSub ['r', 'g', 'b'] (cs.map toLowerCh) || cs.contains '(' then
      match digitRuns cs with
      | a :: b :: c :: _ => ((digitsToNat a : Int), (digitsToNat b : Int), (digitsToNat c : Int))
      | _ => (168, 168, 168)
    else (168, 168, 168)

/-- `parse_color` inside `_get_pixel_color` (lines 368-377): `None` for
an absent/empty string and — notably — for the literal `'#000000'`;
otherwise a `#`-prefixed hex parse, anything else (including `rgb(...)`
forms) gives `None`. -/
def parse_color : Option String → Option (Int × Int × Int)
  | none => none
  | some s =>
    let cs := s.data
    if cs.isEmpty then none
    else if s = "#000000" then none
    else if cs.head? = some '#' then
      let hexc := cs.dropWhile (fun c => c = '#')
      match pyIntHex (slice2 hexc 0), pyIntHex (slice2 hexc 2),
          pyIntHex (slice2 hexc 4) with
      | some a, some b, some c => some (a, b, c)
      | _, _, _ => none
    else none

/-- Per-element colors supplied by the caller (`element_colors` dict;
only the four keys below are ever consulted). -/
structure ElementColors where
  straps : Option String := none
  collar : Option String := none
  trim : Option String := none
  main : Option String := none

/-- `any(element_colors.values())` — some value is a nonempty string. -/
def anyColors (ec : ElementColors) : Bool :=
  let t : Option String → Bool := fun o =>
    match o with
    | some s => !s.isEmpty
    | none => false
  t ec.straps || t ec.collar || t ec.trim || t ec.main

/-- `element_regions` dict built by `_detect_garment_elements`: a key is
present iff its mask is nonempty. -/
structure ElementRegions where
  collar : Option Nat := none
  straps : Option Nat := none
  trim : Option Nat := none
  main : Option Nat := none

def regionsNonempty (er : ElementRegions) : Bool :=
  er.collar.isSome || er.straps.isSome || er.trim.isSome || er.main.isSome

/-- `_get_pixel_color` (lines 362-391): walk the priority order
`straps > collar > trim > main`; use the first region that is present,
has a supplied color, contains the pixel, and whose color string parses
to a non-`None` value; otherwise the default color. -/
def get_pixel_color (x y w : Nat) (er : ElementRegions) (ec : ElementColors)
    (default_color : Int × Int × Int) : Int × Int × Int :=
  let tryR : Option Nat → Option String → Option (Int × Int × Int) :=
    fun regm cstr =>
      match regm, cstr with
      | some m, some cs =>
        if m.testBit (y * w + x) then parse_color (some cs) else none
      | _, _ => none
  match tryR er.straps ec.straps with
  | some c => c
  | none =>
    match tryR er.collar ec.collar with
    | some c => c
    | none =>
      match tryR er.trim ec.trim with
      | some c => c
      | none =>
        match tryR er.main ec.main with
        | some c => c
        | none => default_color

end PV

namespace PV

/-- Largest `n ≤ c` with `(2 r n - r)^2 ≤ 4 c² A`, i.e. the rounded
`c·sqrt(A)/r` used by OpenCV's `getStructuringElement(MORPH_ELLIPSE)`
(`saturate_cast<int>(c*std::sqrt((r*r - dy*dy))*inv_r)`); rounding of
exact halves is immaterial for the sizes 3 and 5 used by the source. -/
def ellipseDx (c r A : Nat) : Nat :=
  ((List.range (c + 1)).filter
    (fun n => decide ((2 * r * n - r) ^ 2 ≤ 4 * c * c * A))).foldl max 0

/-- Offsets of OpenCV's elliptical structuring element of size k×k
(`cv2.getStructuringElement(cv2.MORPH_ELLIPSE, (k, k))`): for k = 3 the
4-connected cross, for k = 5 the 21-pixel ellipse. -/
def cv2EllipseOffs (k : Nat) : List (Int × Int) :=
  let r := k / 2
  (List.range k).flatMap (fun i =>
    let dyAbs := chDiff i r
    if dyAbs ≤ r then
      let dx := ellipseDx r r (r * r - dyAbs * dyAbs)
      let j1 := r - min dx r
      let j2 := min (r + dx + 1) k
      (List.range (j2 - j1)).map
        (fun t => (((i : Int) - (r : Int)), ((j1 + t : Int) - (r : Int))))
    else [])

/-- Second small-region pass of step 7 (lines 211-215 / 222-227):
remove every connected component of the cleaned mask whose area is
below `min_area`. -/
def removeSmall (conn8 : Bool) (h w mask : Nat) : Nat :=
  (compList conn8 h w mask).foldl
    (fun m C => if areaBB (h * w) C < 500 then diffBB h w m C else m) mask

/-- `_detect_garment_elements` (lines 297-360), geometric partition of
the final garment mask; a region is recorded only when nonempty. -/
def detect_garment_elements (opencv : Bool) (h w garment : Nat) : ElementRegions :=
  let collar_mask := garment &&& coordBB h w
    (fun y x => decide (y < h / 4) && decide (w / 4 ≤ x) && decide (x < 3 * w / 4))
  let straps_mask := garment &&& coordBB h w
    (fun y x => decide (y < h / 3) && (decide (x < w / 4) || decide (3 * w / 4 ≤ x)))
  let edge_zone_width := max 5 (min w h / 20)
  let trim_mask :=
    if opencv then diffBB h w garment (cv2ErodeB h w (cv2EllipseOffs edge_zone_width) garment)
    else diffBB h w garment (erodeB h w (boxOffs edge_zone_width) garment)
  let collarR := if collar_mask ≠ 0 then some collar_mask else none
  let strapsR := if straps_mask ≠ 0 then some straps_mask else none
  let trimR := if trim_mask ≠ 0 then some trim_mask else none
  let m1 := match collarR with
    | some m => diffBB h w garment m
    | none => garment
  let m2 := match strapsR with
    | some m => diffBB h w m1 m
    | none => m1
  let m3 := match trimR with
    | some m => diffBB h w m2 m
    | none => m2
  { collar := collarR, straps := strapsR, trim := trimR,
    main := if m3 ≠ 0 then some m3 else none }

/-- `int(target * (0.6 + brightness * 0.4))` of lines 260-266 in exact
arithmetic: `0.6 + (g/255)*0.4 = (765 + 2g)/1275`, and Python `int`
truncates toward zero (`Int.tdiv`). -/
def blendChannel (t : Int) (g : Nat) : Int :=
  (t * (765 + 2 * (g : Int))).tdiv 1275

/-- Storing an int into the uint8 result array (wraps modulo 256; all
values arising in the theorems below are already in 0-255). -/
def storeByte (v : Int) : Nat := (v % 256).toNat

/-- Brightness-preserving recolor of one garment pixel (lines 255-266):
the target color scaled by `0.6 + 0.4·(original gray)/255`. -/
def recolorPix (c : Int × Int × Int) (px : Pix) : Pix :=
  let g := luma px
  (storeByte (blendChannel c.1 g), storeByte (blendChannel c.2.1 g),
    storeByte (blendChannel c.2.2 g))

/-- Result record of one colorizer call (subset of the returned dict). -/
structure ColorizeResult where
  success : Bool
  colorized_image : List Pix
  clothing_areas_detected : Nat

/-- Steps 1-3 of `universal_garment_colorizer`: candidate garment
pixels = white pixels minus the dilated line mask
(`white_no_lines`, lines 84-126). -/
def candBB (img : Img) (white_threshold color_variance : Nat) : Nat :=
  diffBB img.h img.w (pixBB (whiteTest white_threshold color_variance) img.pix)
    (dilateB img.h img.w (boxOffs 3) (pixBB lineTest img.pix))

/-- The dilated skin mask of step 6 (lines 163-204). -/
def skinDilatedBB (opencv : Bool) (img : Img) (skin_protection : ℚ) : Nat :=
  let skin := pixBB (skinTest opencv) img.pix
  let ksz := skinKernelSize skin_protection
  let kit := skinIterations skin_protection
  if opencv then iterN (dilateB img.h img.w (cv2EllipseOffs ksz)) kit skin
  else iterN (dilateB img.h img.w (boxOffs ksz)) kit skin

/-- Garment mask right after the skin subtraction of step 6, before the
morphological cleanup of step 7. -/
def maskAfterSkin (opencv : Bool) (img : Img) (white_threshold color_variance : Nat)
    (skin_protection : ℚ) : Nat :=
  diffBB img.h img.w
    (garmentStep5 opencv img.h img.w (candBB img white_threshold color_variance))
    (skinDilatedBB opencv img skin_protection)

/-- Morphological closing of step 7: 5×5 dilation then 5×5 erosion
(box kernel with scipy's zero border on the fallback path, elliptical
kernel with OpenCV's border handling on the OpenCV path). -/
def closedBB (opencv : Bool) (h w m : Nat) : Nat :=
  if opencv then cv2ErodeB h w (cv2EllipseOffs 5) (dilateB h w (cv2EllipseOffs 5) m)
  else erodeB h w (boxOffs 5) (dilateB h w (boxOffs 5) m)

/-- The final garment mask of `universal_garment_colorizer` (after
steps 1-7), for either code path (`opencv = true`: OpenCV operations
with 8-connected components and elliptical kernels; `opencv = false`:
the scipy/PIL fallback with 4-connected components and box kernels). -/
def garmentMaskBB (opencv : Bool) (img : Img) (white_threshold color_variance : Nat)
    (skin_protection : ℚ) : Nat :=
  removeSmall opencv img.h img.w
    (closedBB opencv img.h img.w
      (maskAfterSkin opencv img white_threshold color_variance skin_protection))

/-- Color applied at pixel index `i` (lines 248-253): the element-aware
lookup when element colors are active and some element region is
nonempty, the parsed target color otherwise. -/
def pixelColorAt (opencv : Bool) (img : Img) (garment2 : Nat)
    (target : Int × Int × Int) (element_colors : Option ElementColors)
    (i : Nat) : Int × Int × Int :=
  match element_colors with
  | some ec =>
    if anyColors ec then
      let er := detect_garment_elements opencv img.h img.w garment2
      if regionsNonempty er then
        get_pixel_color (i % img.w) (i / img.w) img.w er ec target
      else target
    else target
  | none => target

/-- `universal_garment_colorizer` (universal_colorizer.py lines 30-295),
RGB path.  The per-pixel loop of step 9 writes only pixels of the final
mask; everything else keeps the value of `result = img.copy()`. -/
def universal_garment_colorizer (opencv : Bool) (img : Img)
    (target_color : Option String := none)
    (white_threshold : Nat := 245) (color_variance : Nat := 30)
    (skin_protection : ℚ := mkRat 3 10)
    (element_colors : Option ElementColors := none) : ColorizeResult :=
  let TARGET_GRAY := parse_target_color target_color
  let garment2 := garmentMaskBB opencv img white_threshold color_variance skin_protection
  let total := areaBB (img.h * img.w) garment2
  let out := img.pix.enum.map (fun ip =>
    if garment2.testBit ip.1 then
      recolorPix (pixelColorAt opencv img garment2 TARGET_GRAY element_colors ip.1) ip.2
    else ip.2)
  { success := true, colorized_image := out, clothing_areas_detected := total }

end PV

namespace PV

theorem skinKernelSize_eq (s : ℚ) :
    skinKernelSize s = max 3 (Int.toNat ⌊(5 : ℚ) * s⌋) := by
  unfold skinKernelSize
  have hden : ((s.den : ℚ)) ≠ 0 := by
    exact_mod_cast s.den_nz
  have hcast : (5 : ℚ) * s = ((5 * s.num : ℤ) : ℚ) / ((s.den : ℕ) : ℚ) := by
    push_cast
    conv_lhs => rw [← Rat.num_div_den s]
    field_simp
  rw [hcast, Rat.floor_intCast_div_natCast]

theorem skinIterations_eq (s : ℚ) :
    skinIterations s = max 1 (Int.toNat ⌊(2 : ℚ) * s⌋) := by
  unfold skinIterations
  have hcast : (2 : ℚ) * s = ((2 * s.num : ℤ) : ℚ) / ((s.den : ℕ) : ℚ) := by
    push_cast
    conv_lhs => rw [← Rat.num_div_den s]
    field_simp
  rw [hcast, Rat.floor_intCast_div_natCast]

end PV

namespace PV

theorem lt_two_pow_of_testBit_imp {S : Nat} :
    ∀ {n : Nat}, (∀ j, S.testBit j = true → j < n) → S < 2 ^ n := by
  induction S using Nat.strong_induction_on with
  | _ S ih =>
    intro n hb
    rcases Nat.eq_zero_or_pos S with rfl | hpos
    · exact Nat.pos_pow_of_pos _ (by norm_num)
    · cases n with
      | zero =>
        exfalso
        have hz : S = 0 := Nat.zero_of_testBit_eq_false (fun i => by
          cases hv : S.testBit i with
          | false => rfl
          | true => exact absurd (hb i hv) (Nat.not_lt_zero i))
        omega
      | succ m =>
        have hhalf : S / 2 < 2 ^ m := by
          apply ih (S / 2) (Nat.div_lt_self hpos (by norm_num))
          intro j hj
          rw [Nat.testBit_div_two] at hj
          have := hb (j + 1) hj
          omega
        have h2 : S = 2 * (S / 2) + S % 2 := by omega
        have h3 : S % 2 < 2 := Nat.mod_lt S (by norm_num)
        calc S = 2 * (S / 2) + S % 2 := h2
          _ < 2 * 2 ^ m := by omega
          _ = 2 ^ (m + 1) := by ring

theorem exists_bit_of_land_ne_zero {a b : Nat} (hne : a &&& b ≠ 0) :
    ∃ j, a.testBit j = true ∧ b.testBit j = true := by
  by_contra hall
  push_neg at hall
  apply hne
  apply Nat.zero_of_testBit_eq_false
  intro i
  rw [Nat.testBit_land]
  cases hva : a.testBit i with
  | false => rfl
  | true =>
    cases hvb : b.testBit i with
    | false => rfl
    | true => exact absurd hvb (hall i hva)

theorem testBit_pixBBAux (p : Pix → Bool) :
    ∀ (L : List Pix) (i0 j : Nat),
      (pixBBAux p L i0).testBit j = true ↔
        ∃ k px, L.get? k = some px ∧ j = i0 + k ∧ p px = true := by
  intro L
  induction L with
  | nil =>
    intro i0 j
    simp [pixBBAux]
  | cons px0 rest ih =>
    intro i0 j
    unfold pixBBAux
    rw [lor_true, ih (i0 + 1) j]
    constructor
    · rintro (hb | ⟨k, px, hget, rfl, hp⟩)
      · split at hb
        · next hp0 =>
          rw [testBit_bitBB] at hb
          exact ⟨0, px0, rfl, (of_decide_eq_true hb).symm ▸ (by omega), hp0⟩
        · rw [Nat.zero_testBit] at hb
          exact absurd hb Bool.false_ne_true
      · exact ⟨k + 1, px, hget, by omega, hp⟩
    · rintro ⟨k, px, hget, rfl, hp⟩
      cases k with
      | zero =>
        left
        obtain rfl : px0 = px := by
          simp only [List.get?] at hget
          exact Option.some.inj hget
        rw [if_pos hp, testBit_bitBB]
        exact decide_eq_true (by omega)
      | succ k =>
        right
        exact ⟨k, px, hget, by omega, hp⟩

theorem testBit_pixBB {p : Pix → Bool} {pix : List Pix} {j : Nat} :
    (pixBB p pix).testBit j = true ↔
      ∃ px, pix.get? j = some px ∧ p px = true := by
  unfold pixBB
  rw [testBit_pixBBAux]
  constructor
  · rintro ⟨k, px, hget, rfl, hp⟩
    exact ⟨px, by simpa using hget, hp⟩
  · rintro ⟨px, hget, hp⟩
    exact ⟨j, px, hget, by omega, hp⟩

theorem pixBBAux_lt (p : Pix → Bool) :
    ∀ (L : List Pix) (i0 : Nat), pixBBAux p L i0 < 2 ^ (i0 + L.length) := by
  intro L
  induction L with
  | nil =>
    intro i0
    simp only [pixBBAux]
    exact Nat.pos_pow_of_pos _ (by norm_num)
  | cons px0 rest ih =>
    intro i0
    unfold pixBBAux
    apply lor_lt_two_pow
    · split
      · rw [bitBB_eq]
        apply Nat.pow_lt_pow_right (by norm_num)
        simp only [List.length_cons]
        omega
      · exact Nat.pos_pow_of_pos _ (by norm_num)
    · have := ih (i0 + 1)
      simp only [List.length_cons]
      calc pixBBAux p rest (i0 + 1) < 2 ^ (i0 + 1 + rest.length) := this
        _ ≤ 2 ^ (i0 + (rest.length + 1)) := by
            apply Nat.pow_le_pow_right (by norm_num)
            omega

theorem pixBB_lt {p : Pix → Bool} {pix : List Pix} {n : Nat}
    (hlen : pix.length = n) : pixBB p pix < 2 ^ n := by
  unfold pixBB
  have := pixBBAux_lt p pix 0
  rw [hlen] at this
  simpa using this

theorem testBit_foldl_bit (q : Nat → Bool) :
    ∀ (L : List Nat) (m0 j : Nat),
      ((L.foldl (fun acc i => if q i then acc ||| bitBB i else acc) m0).testBit j
        = true) ↔ (m0.testBit j = true ∨ (j ∈ L ∧ q j = true)) := by
  intro L
  induction L with
  | nil => intro m0 j; simp
  | cons i0 rest ih =>
    intro m0 j
    rw [List.foldl_cons, ih]
    constructor
    · rintro (hm | ⟨hmem, hq⟩)
      · split at hm
        · next hq0 =>
          rcases lor_true.mp hm with hm0 | hb0
          · exact Or.inl hm0
          · rw [testBit_bitBB] at hb0
            obtain rfl := of_decide_eq_true hb0
            exact Or.inr ⟨List.mem_cons_self _ _, hq0⟩
        · exact Or.inl hm
      · exact Or.inr ⟨List.mem_cons_of_mem _ hmem, hq⟩
    · rintro (hm | ⟨hmem, hq⟩)
      · left
        split
        · exact lor_true.mpr (Or.inl hm)
        · exact hm
      · rcases List.mem_cons.mp hmem with rfl | htail
        · left
          rw [if_pos hq, lor_true, testBit_bitBB]
          exact Or.inr (decide_eq_true rfl)
        · exact Or.inr ⟨htail, hq⟩

theorem testBit_coordBB {h w : Nat} {p : Nat → Nat → Bool} {j : Nat} :
    (coordBB h w p).testBit j = true ↔ j < h * w ∧ p (j / w) (j % w) = true := by
  unfold coordBB
  rw [testBit_foldl_bit]
  simp [List.mem_range]

theorem coordBB_lt {h w : Nat} {p : Nat → Nat → Bool} :
    coordBB h w p < 2 ^ (h * w) := by
  apply lt_two_pow_of_testBit_imp
  intro j hj
  exact (testBit_coordBB.mp hj).1

theorem listOrBB_lt {n : Nat} {L : List Nat} (hall : ∀ B ∈ L, B < 2 ^ n) :
    listOrBB L < 2 ^ n := by
  apply lt_two_pow_of_testBit_imp
  intro j hj
  obtain ⟨B, hB, hb⟩ := testBit_listOrBB.mp hj
  exact testBit_lt_of_lt_two_pow (hall B hB) hb

theorem listAndBB_lt {h w : Nat} {L : List Nat} :
    listAndBB h w L < 2 ^ (h * w) := by
  unfold listAndBB
  suffices hgen : ∀ (L1 : List Nat) (m0 : Nat), m0 < 2 ^ (h * w) →
      L1.foldl (fun a b => a &&& b) m0 < 2 ^ (h * w) by
    exact hgen L _ (fullBB_lt h w)
  intro L1
  induction L1 with
  | nil => intro m0 hm; exact hm
  | cons B0 rest ih =>
    intro m0 hm
    rw [List.foldl_cons]
    exact ih _ (lt_of_le_of_lt Nat.and_le_left hm)

theorem iterN_lt {n : Nat} {f : Nat → Nat}
    (hf : ∀ S, S < 2 ^ n → f S < 2 ^ n) :
    ∀ (m S : Nat), S < 2 ^ n → iterN f m S < 2 ^ n := by
  intro m
  induction m with
  | zero => intro S hS; exact hS
  | succ m ih => intro S hS; exact ih _ (hf S hS)

theorem shiftV_lt {h w : Nat} {d : Int} {S : Nat} (hS : S < 2 ^ (h * w)) :
    shiftV h w d S < 2 ^ (h * w) := by
  unfold shiftV
  split
  · exact iterN_lt (fun T hT => shS_lt) _ S hS
  · exact iterN_lt (fun T hT => shN_lt hT) _ S hS

theorem shiftH_lt {h w : Nat} {d : Int} {S : Nat} (hw : 0 < w)
    (hS : S < 2 ^ (h * w)) : shiftH h w d S < 2 ^ (h * w) := by
  unfold shiftH
  split
  · exact iterN_lt (fun T hT => shE_lt hw) _ S hS
  · exact iterN_lt (fun T hT => shW_lt hw hT) _ S hS

theorem shiftOff_lt {h w : Nat} {dy dx : Int} {S : Nat} (hw : 0 < w)
    (hS : S < 2 ^ (h * w)) : shiftOff h w dy dx S < 2 ^ (h * w) :=
  shiftH_lt hw (shiftV_lt hS)

theorem dilateB_lt {h w : Nat} {offs : List (Int × Int)} {S : Nat} (hw : 0 < w)
    (hS : S < 2 ^ (h * w)) : dilateB h w offs S < 2 ^ (h * w) := by
  apply listOrBB_lt
  intro B hB
  rw [List.mem_map] at hB
  obtain ⟨d, -, rfl⟩ := hB
  exact shiftOff_lt hw hS

theorem garmentStep5_lt {conn8 : Bool} {h w cand : Nat} (hc : cand < 2 ^ (h * w)) :
    garmentStep5 conn8 h w cand < 2 ^ (h * w) := by
  apply lt_two_pow_of_testBit_imp
  intro j hj
  unfold garmentStep5 at hj
  rw [testBit_foldl_or] at hj
  rcases hj with hm | ⟨C, hC, -, hb⟩
  · rw [Nat.zero_testBit] at hm
    exact absurd hm Bool.false_ne_true
  · obtain ⟨i, -, hci, rfl⟩ := mem_compListAux _ _ _ hC
    exact testBit_lt_of_lt_two_pow (reachBB_lt hc) hb

theorem removeSmall_sub {conn8 : Bool} {h w mask : Nat} :
    subBB (removeSmall conn8 h w mask) mask := by
  unfold removeSmall
  suffices hgen : ∀ (L : List Nat) (m0 : Nat), subBB m0 mask →
      subBB (L.foldl (fun m C => if areaBB (h * w) C < 500 then diffBB h w m C else m) m0) mask by
    exact hgen _ mask (subBB_refl mask)
  intro L
  induction L with
  | nil => intro m0 hm0; exact hm0
  | cons C0 rest ih =>
    intro m0 hm0
    rw [List.foldl_cons]
    apply ih
    split
    · intro j hj
      unfold diffBB at hj
      rw [Nat.testBit_land, Bool.and_eq_true] at hj
      exact hm0 j hj.1
    · exact hm0

theorem removeSmall_lt {conn8 : Bool} {h w mask : Nat} (hm : mask < 2 ^ (h * w)) :
    removeSmall conn8 h w mask < 2 ^ (h * w) := by
  apply lt_two_pow_of_testBit_imp
  intro j hj
  exact testBit_lt_of_lt_two_pow hm (removeSmall_sub j hj)

theorem candBB_lt {img : Img} {wt cv : Nat} (hwf : wfImg img) :
    candBB img wt cv < 2 ^ (img.h * img.w) :=
  diffBB_lt (pixBB_lt hwf.2.2)

theorem maskAfterSkin_lt {opencv : Bool} {img : Img} {wt cv : Nat} {sp : ℚ}
    (hwf : wfImg img) :
    maskAfterSkin opencv img wt cv sp < 2 ^ (img.h * img.w) :=
  diffBB_lt (garmentStep5_lt (candBB_lt hwf))

theorem closedBB_lt {opencv : Bool} {h w m : Nat} (hw : 0 < w)
    (hm : m < 2 ^ (h * w)) : closedBB opencv h w m < 2 ^ (h * w) := by
  unfold closedBB
  split
  · exact listAndBB_lt
  · exact listAndBB_lt

theorem garmentMaskBB_lt {opencv : Bool} {img : Img} {wt cv : Nat} {sp : ℚ}
    (hwf : wfImg img) :
    garmentMaskBB opencv img wt cv sp < 2 ^ (img.h * img.w) :=
  removeSmall_lt (closedBB_lt hwf.2.1 (maskAfterSkin_lt hwf))

end PV

namespace PV

theorem areaBB_zero_iff {n S : Nat} (hS : S < 2 ^ n) :
    areaBB n S = 0 ↔ S = 0 := by
  constructor
  · intro hz
    apply Nat.zero_of_testBit_eq_false
    intro i
    cases hv : S.testBit i with
    | false => rfl
    | true =>
      exfalso
      have hi : i < n := testBit_lt_of_lt_two_pow hS hv
      have hmem : i ∈ (Finset.range n).filter (fun j => S.testBit j = true) := by
        simp [Finset.mem_filter, Finset.mem_range, hi, hv]
      unfold areaBB at hz
      rw [Finset.card_eq_zero] at hz
      rw [hz] at hmem
      exact absurd hmem (Finset.not_mem_empty i)
  · rintro rfl
    unfold areaBB
    simp [Nat.zero_testBit]

theorem colorized_get {opencv : Bool} {img : Img} {tc : Option String}
    {wt cv : Nat} {sp : ℚ} {ec : Option ElementColors} {i : Nat} :
    (universal_garment_colorizer opencv img tc wt cv sp ec).colorized_image.get? i =
      (img.pix.get? i).map (fun px =>
        if (garmentMaskBB opencv img wt cv sp).testBit i then
          recolorPix (pixelColorAt opencv img (garmentMaskBB opencv img wt cv sp)
            (parse_target_color tc) ec i) px
        else px) := by
  unfold universal_garment_colorizer
  simp only [List.get?_map, List.get?_enum]
  cases img.pix.get? i with
  | none => rfl
  | some px => rfl

theorem colorized_id {opencv : Bool} {img : Img} {tc : Option String}
    {wt cv : Nat} {sp : ℚ} {ec : Option ElementColors}
    (hz : garmentMaskBB opencv img wt cv sp = 0) :
    (universal_garment_colorizer opencv img tc wt cv sp ec).colorized_image
      = img.pix := by
  unfold universal_garment_colorizer
  simp only [hz, Nat.zero_testBit, Bool.false_eq_true, if_false]
  exact List.enum_map_snd img.pix

theorem colorizer_success {opencv : Bool} {img : Img} {tc : Option String}
    {wt cv : Nat} {sp : ℚ} {ec : Option ElementColors} :
    (universal_garment_colorizer opencv img tc wt cv sp ec).success = true := rfl

theorem colorizer_count {opencv : Bool} {img : Img} {tc : Option String}
    {wt cv : Nat} {sp : ℚ} {ec : Option ElementColors} :
    (universal_garment_colorizer opencv img tc wt cv sp ec).clothing_areas_detected
      = areaBB (img.h * img.w) (garmentMaskBB opencv img wt cv sp) := rfl

end PV

namespace PV

theorem hexDigit_ne {c : Char} (hc : isHexDigitCh c = true) :
    c ≠ '#' ∧ c ≠ ' ' ∧ c ≠ '+' ∧ c ≠ '-' ∧ c ≠ '_' := by
  refine ⟨?_, ?_, ?_, ?_, ?_⟩ <;> (rintro rfl; simp [isHexDigitCh, isDigitCh] at hc)

theorem hexDigitsVal_two {a b : Char} (ha : isHexDigitCh a = true)
    (hb : isHexDigitCh b = true) :
    hexDigitsVal [a, b] 0 false = some (16 * hexDigitVal a + hexDigitVal b) := by
  simp [hexDigitsVal, ha, hb]

theorem pyIntHex_two {a b : Char} (ha : isHexDigitCh a = true)
    (hb : isHexDigitCh b = true) :
    pyIntHex [a, b] = some ((16 * hexDigitVal a + hexDigitVal b : Nat) : Int) := by
  have ha' := hexDigit_ne ha
  have hb' := hexDigit_ne hb
  unfold pyIntHex
  have h1 : ([a, b].dropWhile (fun c => c = ' ')) = [a, b] := by
    rw [List.dropWhile_cons_of_neg]
    simp [ha'.2.1]
  have h2 : ([b, a].dropWhile (fun c => c = ' ')) = [b, a] := by
    rw [List.dropWhile_cons_of_neg]
    simp [hb'.2.1]
  simp only [h1, List.reverse_cons, List.reverse_nil, List.nil_append,
    List.singleton_append, h2]
  split
  · next heq =>
    rw [List.cons.injEq] at heq
    exact absurd heq.1 ha'.2.2.1
  · next heq =>
    rw [List.cons.injEq] at heq
    exact absurd heq.1 ha'.2.2.2.1
  · rw [hexDigitsVal_two ha hb]
    rfl

theorem parse_hex6 {c1 c2 c3 c4 c5 c6 : Char}
    (h1 : isHexDigitCh c1 = true) (h2 : isHexDigitCh c2 = true)
    (h3 : isHexDigitCh c3 = true) (h4 : isHexDigitCh c4 = true)
    (h5 : isHexDigitCh c5 = true) (h6 : isHexDigitCh c6 = true) :
    parse_target_color (some ⟨['#', c1, c2, c3, c4, c5, c6]⟩) =
      (((16 * hexDigitVal c1 + hexDigitVal c2 : Nat) : Int),
       ((16 * hexDigitVal c3 + hexDigitVal c4 : Nat) : Int),
       ((16 * hexDigitVal c5 + hexDigitVal c6 : Nat) : Int)) := by
  unfold parse_target_color
  have hdrop : (['#', c1, c2, c3, c4, c5, c6].dropWhile (fun c => c = '#')) =
      [c1, c2, c3, c4, c5, c6] := by
    rw [List.dropWhile_cons_of_pos (by simp), List.dropWhile_cons_of_neg]
    simp [(hexDigit_ne h1).1]
  simp only [String.data]
  rw [if_neg (by simp), if_pos (by simp)]
  simp only [hdrop]
  have hs0 : slice2 [c1, c2, c3, c4, c5, c6] 0 = [c1, c2] := rfl
  have hs2 : slice2 [c1, c2, c3, c4, c5, c6] 2 = [c3, c4] := rfl
  have hs4 : slice2 [c1, c2, c3, c4, c5, c6] 4 = [c5, c6] := rfl
  rw [hs0, hs2, hs4, pyIntHex_two h1 h2, pyIntHex_two h3 h4, pyIntHex_two h5 h6]

end PV

namespace PV

theorem digitRunsAux_digits :
    ∀ (ds acc rest : List Char), (∀ c ∈ ds, isDigitCh c = true) →
      digitRunsAux (ds ++ rest) acc = digitRunsAux rest (ds.reverse ++ acc) := by
  intro ds
  induction ds with
  | nil => intro acc rest h; simp
  | cons c ds ih =>
    intro acc rest h
    rw [List.cons_append]
    have hc : isDigitCh c = true := h c (List.mem_cons_self _ _)
    simp only [digitRunsAux, hc, if_true]
    rw [ih (c :: acc) rest (fun x hx => h x (List.mem_cons_of_mem _ hx))]
    congr 1
    simp

theorem digitRunsAux_sep {c : Char} {acc rest : List Char}
    (hc : isDigitCh c = false) (hacc : acc ≠ []) :
    digitRunsAux (c :: rest) acc = acc.reverse :: digitRunsAux rest [] := by
  have hae : acc.isEmpty = false := by
    cases acc with
    | nil => exact absurd rfl hacc
    | cons a l => rfl
  simp [digitRunsAux, hc, hae]

theorem digitRunsAux_skip {c : Char} {rest : List Char}
    (hc : isDigitCh c = false) :
    digitRunsAux (c :: rest) [] = digitRunsAux rest [] := by
  simp [digitRunsAux, hc]

theorem parse_rgb {ds1 ds2 ds3 : List Char}
    (h1 : ∀ c ∈ ds1, isDigitCh c = true) (hn1 : ds1 ≠ [])
    (h2 : ∀ c ∈ ds2, isDigitCh c = true) (hn2 : ds2 ≠ [])
    (h3 : ∀ c ∈ ds3, isDigitCh c = true) (hn3 : ds3 ≠ []) :
    parse_target_color
        (some ⟨'r' :: 'g' :: 'b' :: '(' :: (ds1 ++ ',' :: (ds2 ++ ',' :: (ds3 ++ [')'])))⟩)
      = ((digitsToNat ds1 : Int), (digitsToNat ds2 : Int), (digitsToNat ds3 : Int)) := by
  unfold parse_target_color
  simp only [String.data]
  rw [if_neg (by simp), if_neg (by simp)]
  rw [if_pos ?hsub]
  case hsub =>
    rw [Bool.or_eq_true]
    left
    simp [listHasSub, listStarts, toLowerCh]
  unfold digitRuns
  rw [digitRunsAux_skip (by decide), digitRunsAux_skip (by decide),
    digitRunsAux_skip (by decide), digitRunsAux_skip (by decide)]
  rw [digitRunsAux_digits ds1 [] _ h1]
  rw [List.append_nil]
  rw [digitRunsAux_sep (by decide) (by simp [hn1])]
  rw [digitRunsAux_digits ds2 [] _ h2]
  rw [List.append_nil]
  rw [digitRunsAux_sep (by decide) (by simp [hn2])]
  rw [digitRunsAux_digits ds3 [] _ h3]
  rw [List.append_nil]
  rw [digitRunsAux_sep (by decide) (by simp [hn3])]
  simp [digitRunsAux]

theorem parse_malformed {s : String} (hne : s.data ≠ [])
    (hhash : s.data.head? ≠ some '#')
    (hrgb : listHasSub ['r', 'g', 'b'] (s.data.map toLowerCh) = false)
    (hparen : s.data.contains '(' = false) :
    parse_target_color (some s) = (168, 168, 168) := by
  simp only [parse_target_color]
  rw [if_neg (by simp [List.isEmpty_iff, hne]), if_neg hhash, if_neg ?hno]
  case hno =>
    rw [Bool.or_eq_true]
    rintro (h | h)
    · rw [hrgb] at h
      exact Bool.false_ne_true h
    · rw [hparen] at h
      exact Bool.false_ne_true h

end PV

namespace PV

def pixByte (px : Pix) : Prop := px.1 ≤ 255 ∧ px.2.1 ≤ 255 ∧ px.2.2 ≤ 255

instance (px : Pix) : Decidable (pixByte px) := by
  unfold pixByte
  infer_instance

theorem luma_le_255 {px : Pix} (hb : pixByte px) : luma px ≤ 255 := by
  obtain ⟨h1, h2, h3⟩ := hb
  unfold luma
  rw [Nat.shiftRight_eq_div_pow]
  have hp : (2:Nat) ^ 16 = 65536 := by norm_num
  rw [hp]
  omega

theorem blendChannel_eq_floor {t : Int} (ht : 0 ≤ t) (g : Nat) :
    blendChannel t g = ⌊(t : ℚ) * (6/10 + 4/10 * ((g : ℚ) / 255))⌋ := by
  unfold blendChannel
  have hnum : (0:Int) ≤ t * (765 + 2 * (g:Int)) := by positivity
  rw [Int.tdiv_eq_ediv hnum (by norm_num)]
  have hcast : (t : ℚ) * (6/10 + 4/10 * ((g : ℚ) / 255))
      = ((t * (765 + 2 * (g:Int)) : Int) : ℚ) / ((1275 : Nat) : ℚ) := by
    push_cast
    ring
  rw [hcast, Rat.floor_intCast_div_natCast]
  norm_num

theorem blendChannel_bounds {t : Int} {g : Nat} (ht0 : 0 ≤ t) (ht1 : t ≤ 255)
    (hg : g ≤ 255) : 0 ≤ blendChannel t g ∧ blendChannel t g ≤ 255 := by
  unfold blendChannel
  have hnum0 : (0:Int) ≤ t * (765 + 2 * (g:Int)) := by positivity
  rw [Int.tdiv_eq_ediv hnum0 (by norm_num)]
  have hg' : (g:Int) ≤ 255 := by exact_mod_cast hg
  have hg0 : (0:Int) ≤ (g:Int) := by positivity
  have hnum1 : t * (765 + 2 * (g:Int)) ≤ 255 * 1275 := by nlinarith
  omega

theorem storeByte_eq {v : Int} (h0 : 0 ≤ v) (h1 : v ≤ 255) :
    storeByte v = v.toNat := by
  unfold storeByte
  omega

theorem recolorPix_eq {t : Int × Int × Int} {px : Pix} (hb : pixByte px)
    (h1 : 0 ≤ t.1 ∧ t.1 ≤ 255) (h2 : 0 ≤ t.2.1 ∧ t.2.1 ≤ 255)
    (h3 : 0 ≤ t.2.2 ∧ t.2.2 ≤ 255) :
    recolorPix t px =
      ((⌊(t.1 : ℚ) * (6/10 + 4/10 * ((luma px : ℚ) / 255))⌋).toNat,
       (⌊(t.2.1 : ℚ) * (6/10 + 4/10 * ((luma px : ℚ) / 255))⌋).toNat,
       (⌊(t.2.2 : ℚ) * (6/10 + 4/10 * ((luma px : ℚ) / 255))⌋).toNat) := by
  have hg := luma_le_255 hb
  obtain ⟨b1a, b1b⟩ := blendChannel_bounds h1.1 h1.2 hg
  obtain ⟨b2a, b2b⟩ := blendChannel_bounds h2.1 h2.2 hg
  obtain ⟨b3a, b3b⟩ := blendChannel_bounds h3.1 h3.2 hg
  show (storeByte (blendChannel t.1 (luma px)), storeByte (blendChannel t.2.1 (luma px)),
    storeByte (blendChannel t.2.2 (luma px))) = _
  rw [storeByte_eq b1a b1b, storeByte_eq b2a b2b, storeByte_eq b3a b3b,
    blendChannel_eq_floor h1.1, blendChannel_eq_floor h2.1, blendChannel_eq_floor h3.1]

theorem colorized_length {opencv : Bool} {img : Img} {tc : Option String}
    {wt cv : Nat} {sp : ℚ} {ec : Option ElementColors} :
    (universal_garment_colorizer opencv img tc wt cv sp ec).colorized_image.length
      = img.pix.length := by
  unfold universal_garment_colorizer
  simp [List.length_map, List.enum_length]

theorem pixelColorAt_none {opencv : Bool} {img : Img} {g2 : Nat}
    {t : Int × Int × Int} {i : Nat} :
    pixelColorAt opencv img g2 t none i = t := rfl

theorem diffBB_zero_right {h w X : Nat} (hX : X < 2 ^ (h * w)) :
    diffBB h w X 0 = X := by
  apply Nat.eq_of_testBit_eq
  intro i
  rw [testBit_diffBB hX]
  simp [Nat.zero_testBit]

theorem skinKernelSize_mono {s1 s2 : ℚ} (h : s1 ≤ s2) :
    skinKernelSize s1 ≤ skinKernelSize s2 := by
  rw [skinKernelSize_eq, skinKernelSize_eq]
  have hf : ⌊(5:ℚ) * s1⌋ ≤ ⌊(5:ℚ) * s2⌋ := Int.floor_le_floor (by linarith)
  omega

theorem skinIterations_mono {s1 s2 : ℚ} (h : s1 ≤ s2) :
    skinIterations s1 ≤ skinIterations s2 := by
  rw [skinIterations_eq, skinIterations_eq]
  have hf : ⌊(2:ℚ) * s1⌋ ≤ ⌊(2:ℚ) * s2⌋ := Int.floor_le_floor (by linarith)
  omega

theorem skinKernelSize_pos (s : ℚ) : 0 < skinKernelSize s := by
  unfold skinKernelSize
  omega

theorem skin_sub_skinDilated {img : Img} {s : ℚ} :
    subBB (pixBB (skinTest false) img.pix) (skinDilatedBB false img s) := by
  show subBB (pixBB (skinTest false) img.pix)
    (iterN (dilateB img.h img.w (boxOffs (skinKernelSize s))) (skinIterations s)
      (pixBB (skinTest false) img.pix))
  exact iterN_extensive
    (fun T => dilateB_extensive (zero_mem_boxOffs (skinKernelSize_pos s)) T)
    (fun hab => dilateB_mono hab) _ _

theorem skinDilatedBB_mono {img : Img} {s1 s2 : ℚ} (h12 : s1 ≤ s2) :
    subBB (skinDilatedBB false img s1) (skinDilatedBB false img s2) := by
  show subBB
    (iterN (dilateB img.h img.w (boxOffs (skinKernelSize s1))) (skinIterations s1)
      (pixBB (skinTest false) img.pix))
    (iterN (dilateB img.h img.w (boxOffs (skinKernelSize s2))) (skinIterations s2)
      (pixBB (skinTest false) img.pix))
  exact iter_dilate_mono (skinKernelSize_mono h12) (skinKernelSize_pos s2)
    (skinIterations_mono h12) _

theorem maskAfterSkin_no_skin {img : Img} {wt cv : Nat} {s : ℚ} {i : Nat} {px : Pix}
    (hwf : wfImg img) (hskin : skinTest false px = true)
    (hget : img.pix.get? i = some px) :
    (maskAfterSkin false img wt cv s).testBit i = false := by
  have hsb : (pixBB (skinTest false) img.pix).testBit i = true :=
    testBit_pixBB.mpr ⟨px, hget, hskin⟩
  have hdil : (skinDilatedBB false img s).testBit i = true :=
    skin_sub_skinDilated i hsb
  unfold maskAfterSkin
  rw [testBit_diffBB (garmentStep5_lt (candBB_lt hwf))]
  rw [hdil]
  simp

def IsCompBB (conn8 : Bool) (h w cand C : Nat) : Prop :=
  ∃ i, i < h * w ∧ cand.testBit i = true ∧ C = reachBB conn8 h w cand i

theorem comp_in_step5_iff {conn8 : Bool} {h w cand C : Nat} (hw : 0 < w)
    (hc : cand < 2 ^ (h * w)) (hC : IsCompBB conn8 h w cand C) :
    subBB C (garmentStep5 conn8 h w cand) ↔
      (500 < areaBB (h * w) C ∧ C &&& borderBB h w = 0) := by
  obtain ⟨i, hi, hci, rfl⟩ := hC
  constructor
  · intro hsub
    have hb := hsub i (mem_reachBB_self hci)
    rw [testBit_garmentStep5 hw hc] at hb
    exact hb.2
  · intro hpass
    intro j hj
    rw [testBit_garmentStep5 hw hc]
    refine ⟨reachBB_sub_cand j hj, ?_⟩
    rw [reachBB_eq_of_mem hw hc hci hj]
    exact hpass

theorem garmentMask_no_border {img : Img} {wt cv : Nat} {sp : ℚ} {j : Nat}
    (hwf : wfImg img)
    (hb : (garmentMaskBB false img wt cv sp).testBit j = true) :
    (borderBB img.h img.w).testBit j = false := by
  have h2 : (closedBB false img.h img.w (maskAfterSkin false img wt cv sp)).testBit j = true :=
    removeSmall_sub j hb
  have h3 : (erodeB img.h img.w (boxOffs 5)
      (dilateB img.h img.w (boxOffs 5) (maskAfterSkin false img wt cv sp))).testBit j
      = true := h2
  exact erodeB_no_border hwf.2.1 (by norm_num)
    (dilateB_lt hwf.2.1 (maskAfterSkin_lt hwf)) h3

theorem colorized_get_elements {opencv : Bool} {img : Img} {tc : Option String}
    {wt cv : Nat} {sp : ℚ} {ec : ElementColors} {i : Nat} {px : Pix}
    (hany : anyColors ec = true)
    (hne : regionsNonempty (detect_garment_elements opencv img.h img.w
      (garmentMaskBB opencv img wt cv sp)) = true)
    (hmask : (garmentMaskBB opencv img wt cv sp).testBit i = true)
    (hget : img.pix.get? i = some px) :
    (universal_garment_colorizer opencv img tc wt cv sp (some ec)).colorized_image.get? i
      = some (recolorPix (get_pixel_color (i % img.w) (i / img.w) img.w
          (detect_garment_elements opencv img.h img.w (garmentMaskBB opencv img wt cv sp)) ec
          (parse_target_color tc)) px) := by
  rw [colorized_get, hget]
  simp only [Option.map_some']
  rw [if_pos hmask]
  simp only [pixelColorAt]
  rw [if_pos hany, if_pos hne]

end PV

namespace PV

/-- 32×32 test sketch: a black rectangular frame through rows/columns 2
and 29, near-white fill of value 254 elsewhere (Scenario-A-style input;
its final garment mask is the 24×24 interior, 576 pixels). -/
def ex2F (y x : Nat) : Pix :=
  if ((y = 2 ∨ y = 29) ∧ 2 ≤ x ∧ x ≤ 29) ∨ ((x = 2 ∨ x = 29) ∧ 2 ≤ y ∧ y ≤ 29)
  then (0, 0, 0) else (254, 254, 254)

def ex2Img : Img :=
  { h := 32, w := 32, pix := (List.range (32 * 32)).map (fun i => ex2F (i / 32) (i % 32)) }

/-- Like `ex2Img` but with fill value 250 (used to exhibit the
non-idempotence of the brightness blend). -/
def ex8F (y x : Nat) : Pix :=
  if ((y = 2 ∨ y = 29) ∧ 2 ≤ x ∧ x ≤ 29) ∨ ((x = 2 ∨ x = 29) ∧ 2 ≤ y ∧ y ≤ 29)
  then (0, 0, 0) else (250, 250, 250)

def ex8Img : Img :=
  { h := 32, w := 32, pix := (List.range (32 * 32)).map (fun i => ex8F (i / 32) (i % 32)) }

/-- Like `ex2Img` with white fill and a single skin-toned pixel
`(200,100,100)` at row 15, column 15. -/
def ex5F (y x : Nat) : Pix :=
  if ((y = 2 ∨ y = 29) ∧ 2 ≤ x ∧ x ≤ 29) ∨ ((x = 2 ∨ x = 29) ∧ 2 ≤ y ∧ y ≤ 29)
  then (0, 0, 0)
  else if y = 15 ∧ x = 15 then (200, 100, 100)
  else (255, 255, 255)

def ex5Img : Img :=
  { h := 32, w := 32, pix := (List.range (32 * 32)).map (fun i => ex5F (i / 32) (i % 32)) }

/-- Like `ex2Img` with pure white fill (Scenario-D-style input for the
element-color tests). -/
def ex4F (y x : Nat) : Pix :=
  if ((y = 2 ∨ y = 29) ∧ 2 ≤ x ∧ x ≤ 29) ∨ ((x = 2 ∨ x = 29) ∧ 2 ≤ y ∧ y ≤ 29)
  then (0, 0, 0) else (255, 255, 255)

def ex4Img : Img :=
  { h := 32, w := 32, pix := (List.range (32 * 32)).map (fun i => ex4F (i / 32) (i % 32)) }

/-- 32×32 sketch whose black frame runs through row/column 0 and 29: the
enclosed 26×26 region sits two pixels from the top/left border, so the
5×5 closing of the OpenCV path (whose erosion does not constrain
structuring-element positions outside the image) reaches the border. -/
def exC1F (y x : Nat) : Pix :=
  if y = 0 ∨ y = 29 ∨ x = 0 ∨ x = 29 then (0, 0, 0) else (255, 255, 255)

def exC1Img : Img :=
  { h := 32, w := 32, pix := (List.range (32 * 32)).map (fun i => exC1F (i / 32) (i % 32)) }

/-- 30×30 gray image with a 23×23 white block (rows/columns 3-25) and a
3-pixel white blob at column 2, rows 0-2: the blob touches the border
and is 8-adjacent (but not 4-adjacent) to the block's corner, so the
two code paths label the components differently. -/
def ex7F (y x : Nat) : Pix :=
  if (3 ≤ y ∧ y ≤ 25 ∧ 3 ≤ x ∧ x ≤ 25) ∨ (x = 2 ∧ y ≤ 2) then (255, 255, 255)
  else (150, 150, 150)

def ex7Img : Img :=
  { h := 30, w := 30, pix := (List.range (30 * 30)).map (fun i => ex7F (i / 30) (i % 30)) }

/-- 8×8 uniform mid-gray image: no white pixels, so the final garment
mask is empty on both code paths. -/
def exSmallImg : Img :=
  { h := 8, w := 8, pix := (List.range (8 * 8)).map (fun _ => ((150, 150, 150) : Pix)) }

/-- A 2×2 candidate block at rows/columns 1-2 of a 4×4 grid (witness
candidate mask for the region-filter characterization). -/
def candW : Nat := bitBB 5 ||| bitBB 6 ||| bitBB 9 ||| bitBB 10

/-- The garment-analysis fields consulted by the intimate-zone step of
`_basic_colorization` (FIXED_PRODUCTION_SERVER backup, lines 795-818):
`garment_analysis.get('garment_type', '')` and `...get('category', '')`. -/
structure GarmentAnalysis where
  garment_type : String := ""
  category : String := ""

/-- `str.lower()` (ASCII, as all strings involved here are ASCII). -/
def strLower (s : String) : String := ⟨s.data.map toLowerCh⟩

/-- Line 797: `'bodysuit' in garment_type.lower() or 'bodysuit' in
category.lower() or 'corset' in garment_type.lower()`. -/
def intimate_trigger (ga : GarmentAnalysis) : Bool :=
  listHasSub ['b','o','d','y','s','u','i','t'] (strLower ga.garment_type).data ||
  listHasSub ['b','o','d','y','s','u','i','t'] (strLower ga.category).data ||
  listHasSub ['c','o','r','s','e','t'] (strLower ga.garment_type).data

/-- `intimate_width = int(width * 0.15)` (line 803), in exact rational
arithmetic.  Where the IEEE double `0.15` makes Python's value one
smaller (at multiples of 20), the derived `x_start`/`x_end` below are
unaffected, because both values of `intimate_width // 2` coincide at
every width the theorems use. -/
def intimate_width (w : Nat) : Nat := 15 * w / 100

/-- `intimate_height = int(height * 0.20)` (line 804). -/
def intimate_height (h : Nat) : Nat := 20 * h / 100

/-- `bottom_y = int(height * 0.65)` (line 800). -/
def intimate_bottom_y (h : Nat) : Nat := 65 * h / 100

/-- `x_start = max(0, center_x - intimate_width // 2)` (line 806);
truncated subtraction on `Nat` is the `max(0, ·)`. -/
def intimate_x_start (w : Nat) : Nat := w / 2 - intimate_width w / 2

/-- `x_end = min(width, center_x + intimate_width // 2)` (line 807). -/
def intimate_x_end (w : Nat) : Nat := min w (w / 2 + intimate_width w / 2)

/-- `y_end = min(height, bottom_y + intimate_height)` (line 809). -/
def intimate_y_end (h : Nat) : Nat := min h (intimate_bottom_y h + intimate_height h)

/-- `intimate_mask` (lines 795-812): all-zero unless the garment type or
category triggers the bodysuit/corset branch, in which case the
rectangle `[y_start:y_end, x_start:x_end]` is set. -/
def intimate_mask (trig : Bool) (h w : Nat) : Nat :=
  if trig then
    coordBB h w (fun y x =>
      decide (intimate_bottom_y h ≤ y) && decide (y < intimate_y_end h) &&
      decide (intimate_x_start w ≤ x) && decide (x < intimate_x_end w))
  else 0

/-- `clothing_mask = binary & ~skin_mask & ~intimate_mask` (line 815). -/
def clothing_mask (h w binary skin : Nat) (trig : Bool) : Nat :=
  diffBB h w (diffBB h w binary skin) (intimate_mask trig h w)

end PV

namespace PV

/-- C1: For any connected component of the candidate grid (either
connectivity/code path), the component is included in the step-5 garment
mask iff its area strictly exceeds `min_area = 500` and it contains no
pixel of row 0, the last row, column 0 or the last column.  The claim's
further "hence no border-touching region is ever included in the final
garment mask" survives only on the scipy/PIL fallback path, whose
closing erodes with `border_value = 0` (second conjunct); the OpenCV
path can push the final mask onto the border (see the counterexample
`C1_counterexample`). -/
theorem C1_region_filter (conn8 : Bool) (h w cand C : Nat) (hw : 0 < w)
    (hc : cand < 2 ^ (h * w)) (hC : IsCompBB conn8 h w cand C) :
    (subBB C (garmentStep5 conn8 h w cand) ↔
      (500 < areaBB (h * w) C ∧ C &&& borderBB h w = 0))
  ∧ (∀ (img : Img) (wt cv : Nat) (sp : ℚ) (j : Nat), wfImg img →
      (garmentMaskBB false img wt cv sp).testBit j = true →
      (borderBB img.h img.w).testBit j = false) :=
  ⟨comp_in_step5_iff hw hc hC,
   fun _ _ _ _ _ hwf hb => garmentMask_no_border hwf hb⟩

/-- C3: An empty final garment mask is not an error: the call still
returns success, the output image equals the input pixel-for-pixel, and
the reported count is zero. -/
theorem C3_empty_mask (opencv : Bool) (img : Img) (tc : Option String)
    (wt cv : Nat) (sp : ℚ) (ec : Option ElementColors)
    (hwf : wfImg img)
    (hz : areaBB (img.h * img.w) (garmentMaskBB opencv img wt cv sp) = 0) :
    (universal_garment_colorizer opencv img tc wt cv sp ec).success = true ∧
    (universal_garment_colorizer opencv img tc wt cv sp ec).colorized_image = img.pix ∧
    (universal_garment_colorizer opencv img tc wt cv sp ec).clothing_areas_detected = 0 := by
  have hm0 : garmentMaskBB opencv img wt cv sp = 0 :=
    (areaBB_zero_iff (garmentMaskBB_lt hwf)).mp hz
  exact ⟨rfl, colorized_id hm0, hz⟩

/-- C4: First-match priority `straps > collar > trim > main` holds, but
only among regions whose color string parses: `parse_color` maps the
literal `'#000000'` to `None`, so a straps region colored `#000000`
falls through to the next match or the default target (the Scenario-D
expectation of near-black straps fails, see `C4_counterexample`).  The
third conjunct ties `_get_pixel_color` to the pipeline's per-pixel
loop. -/
theorem C4_element_priority (x y w : Nat) (er : ElementRegions) (ec0 : ElementColors)
    (d c : Int × Int × Int) (m : Nat) (cs : String)
    (opencv : Bool) (img : Img) (tc : Option String) (wt cv : Nat) (sp : ℚ)
    (ec : ElementColors) (i : Nat) (px : Pix)
    (hr : er.straps = some m) (hcstr : ec0.straps = some cs)
    (hbit : m.testBit (y * w + x) = true)
    (hp : parse_color (some cs) = some c)
    (hany : anyColors ec = true)
    (hne : regionsNonempty (detect_garment_elements opencv img.h img.w
      (garmentMaskBB opencv img wt cv sp)) = true)
    (hmask : (garmentMaskBB opencv img wt cv sp).testBit i = true)
    (hget : img.pix.get? i = some px) :
    get_pixel_color x y w er ec0 d = c
  ∧ parse_color (some "#000000") = none
  ∧ (universal_garment_colorizer opencv img tc wt cv sp (some ec)).colorized_image.get? i
      = some (recolorPix (get_pixel_color (i % img.w) (i / img.w) img.w
          (detect_garment_elements opencv img.h img.w (garmentMaskBB opencv img wt cv sp)) ec
          (parse_target_color tc)) px) := by
  refine ⟨?_, rfl, colorized_get_elements hany hne hmask hget⟩
  simp only [get_pixel_color, hr, hcstr, hbit, hp]
  simp

/-- C6: A six-hex-digit `#RRGGBB` parses to its channel values and an
`rgb(r,g,b)` form to its three decimal numbers; an absent string or one
with no `#`, no `rgb` substring and no `(` yields the default gray
`(168,168,168)`, and with no target and no element colors the gray is
what a masked pixel receives.  (Malformed `#...` strings do NOT always
fall back to gray: see `C6_counterexample`.) -/
theorem C6_target_parse
    (c1 c2 c3 c4 c5 c6 : Char) (ds1 ds2 ds3 : List Char) (s : String)
    (opencv : Bool) (img : Img) (wt cv : Nat) (sp : ℚ) (i : Nat) (px : Pix)
    (h1 : isHexDigitCh c1 = true) (h2 : isHexDigitCh c2 = true)
    (h3 : isHexDigitCh c3 = true) (h4 : isHexDigitCh c4 = true)
    (h5 : isHexDigitCh c5 = true) (h6 : isHexDigitCh c6 = true)
    (hd1 : ∀ c ∈ ds1, isDigitCh c = true) (hn1 : ds1 ≠ [])
    (hd2 : ∀ c ∈ ds2, isDigitCh c = true) (hn2 : ds2 ≠ [])
    (hd3 : ∀ c ∈ ds3, isDigitCh c = true) (hn3 : ds3 ≠ [])
    (hsne : s.data ≠ []) (hhash : s.data.head? ≠ some '#')
    (hrgb : listHasSub ['r', 'g', 'b'] (s.data.map toLowerCh) = false)
    (hparen : s.data.contains '(' = false)
    (hmask : (garmentMaskBB opencv img wt cv sp).testBit i = true)
    (hget : img.pix.get? i = some px) :
    parse_target_color (some ⟨['#', c1, c2, c3, c4, c5, c6]⟩) =
      (((16 * hexDigitVal c1 + hexDigitVal c2 : Nat) : Int),
       ((16 * hexDigitVal c3 + hexDigitVal c4 : Nat) : Int),
       ((16 * hexDigitVal c5 + hexDigitVal c6 : Nat) : Int))
  ∧ parse_target_color
      (some ⟨'r' :: 'g' :: 'b' :: '(' :: (ds1 ++ ',' :: (ds2 ++ ',' :: (ds3 ++ [')'])))⟩)
      = ((digitsToNat ds1 : Int), (digitsToNat ds2 : Int), (digitsToNat ds3 : Int))
  ∧ parse_target_color (some s) = (168, 168, 168)
  ∧ parse_target_color none = (168, 168, 168)
  ∧ (universal_garment_colorizer opencv img none wt cv sp none).colorized_image.get? i
      = some (recolorPix (168, 168, 168) px) := by
  refine ⟨parse_hex6 h1 h2 h3 h4 h5 h6, parse_rgb hd1 hn1 hd2 hn2 hd3 hn3,
    parse_malformed hsne hhash hrgb hparen, rfl, ?_⟩
  rw [colorized_get, hget]
  simp only [Option.map_some']
  rw [if_pos hmask]
  rfl

/-- C8: Recoloring is idempotent only conditionally: when the first
output no longer contains a qualifying garment region (its mask is
empty), a second run with the same arguments changes nothing.  In
general a second run DOES change pixels (the blend is not a fixed point
after one application, see `C8_counterexample`). -/
theorem C8_idempotent (opencv : Bool) (img : Img) (tc : Option String)
    (wt cv : Nat) (sp : ℚ) (ec : Option ElementColors)
    (hwf : wfImg img)
    (hz : areaBB (img.h * img.w)
      (garmentMaskBB opencv
        { h := img.h, w := img.w,
          pix := (universal_garment_colorizer opencv img tc wt cv sp ec).colorized_image }
        wt cv sp) = 0) :
    (universal_garment_colorizer opencv
      { h := img.h, w := img.w,
        pix := (universal_garment_colorizer opencv img tc wt cv sp ec).colorized_image }
      tc wt cv sp ec).colorized_image
    = (universal_garment_colorizer opencv img tc wt cv sp ec).colorized_image := by
  have hwf2 : wfImg { h := img.h, w := img.w,
                      pix := (universal_garment_colorizer opencv img tc wt cv sp
                        ec).colorized_image } := by
    refine ⟨hwf.1, hwf.2.1, ?_⟩
    show (universal_garment_colorizer opencv img tc wt cv sp ec).colorized_image.length
      = img.h * img.w
    rw [colorized_length]
    exact hwf.2.2
  exact colorized_id ((areaBB_zero_iff (garmentMaskBB_lt hwf2)).mp hz)

/-- C9: The intimate-zone step zeroes exactly the rectangle
`[int(0.65h), min(h, int(0.65h)+int(0.20h))) × [w/2 − int(0.15w)/2,
min(w, w/2 + int(0.15w)/2))` when the bodysuit/corset trigger fires, and
leaves the mask unchanged otherwise.  The zeroed width is
`2·(int(0.15w)/2)`, NOT 15% of the image width (see
`C9_counterexample`). -/
theorem C9_intimate_zone (ga : GarmentAnalysis) (h w binary skin i : Nat)
    (hb : binary < 2 ^ (h * w)) (hi : i < h * w) :
    (intimate_trigger ga = false →
      clothing_mask h w binary skin (intimate_trigger ga) = diffBB h w binary skin)
  ∧ ((intimate_mask true h w).testBit i = true ↔
      (65 * h / 100 ≤ i / w ∧ i / w < min h (65 * h / 100 + 20 * h / 100) ∧
       w / 2 - (15 * w / 100) / 2 ≤ i % w ∧ i % w < min w (w / 2 + (15 * w / 100) / 2)))
  ∧ ((clothing_mask h w binary skin true).testBit i =
      ((binary.testBit i && !(skin.testBit i)) && !((intimate_mask true h w).testBit i))) := by
  refine ⟨?_, ?_, ?_⟩
  · intro htrig
    rw [htrig]
    have hm0 : intimate_mask false h w = 0 := rfl
    unfold clothing_mask
    rw [hm0]
    exact diffBB_zero_right (diffBB_lt hb)
  · have hm : intimate_mask true h w = coordBB h w (fun y x =>
        decide (intimate_bottom_y h ≤ y) && decide (y < intimate_y_end h) &&
        decide (intimate_x_start w ≤ x) && decide (x < intimate_x_end w)) := rfl
    rw [hm, testBit_coordBB]
    simp only [Bool.and_eq_true, decide_eq_true_eq]
    unfold intimate_bottom_y intimate_y_end intimate_height intimate_x_start
      intimate_x_end intimate_width
    constructor
    · rintro ⟨-, ⟨⟨hb1, hb2⟩, hb3⟩, hb4⟩
      exact ⟨hb1, hb2, hb3, hb4⟩
    · rintro ⟨hb1, hb2, hb3, hb4⟩
      exact ⟨hi, ⟨⟨hb1, hb2⟩, hb3⟩, hb4⟩
  · unfold clothing_mask
    rw [testBit_diffBB (diffBB_lt hb), testBit_diffBB hb]

/-- C10: A pixel outside the final garment mask is returned unchanged:
the per-pixel loop writes only masked pixels and `result` starts as a
copy of the input. -/
theorem C10_frame (opencv : Bool) (img : Img) (tc : Option String)
    (wt cv : Nat) (sp : ℚ) (ec : Option ElementColors) (i : Nat) (px : Pix)
    (hget : img.pix.get? i = some px)
    (hout : (garmentMaskBB opencv img wt cv sp).testBit i = false) :
    (universal_garment_colorizer opencv img tc wt cv sp ec).colorized_image.get? i
      = some px := by
  rw [colorized_get, hget]
  simp only [Option.map_some']
  rw [if_neg ?hno]
  case hno =>
    rw [hout]
    exact Bool.false_ne_true

end PV

namespace PV

set_option maxRecDepth 1000000
set_option maxHeartbeats 8000000

/-- C7: The two code paths of `universal_garment_colorizer` are NOT
equivalent: on `ex7Img` the OpenCV path (8-connected components) merges
the enclosed 23×23 block with the border-touching 3-pixel blob that is
only diagonally adjacent to it, rejecting everything (count 0, image
unchanged), while the scipy fallback (4-connected `label`) keeps the
block (count 529) and recolors it. -/
theorem C7_path_divergence :
    (universal_garment_colorizer true ex7Img (some "#FF0000")).clothing_areas_detected = 0 ∧
    (universal_garment_colorizer false ex7Img (some "#FF0000")).clothing_areas_detected = 529 ∧
    (universal_garment_colorizer true ex7Img (some "#FF0000")).colorized_image.get? (10 * 30 + 10)
      = some (255, 255, 255) ∧
    (universal_garment_colorizer false ex7Img (some "#FF0000")).colorized_image.get? (10 * 30 + 10)
      = some (255, 0, 0) := by
  refine ⟨by decide, by decide, by decide, by decide⟩

/-- C1 counterexample: on the OpenCV path the final garment mask of
`exC1Img` contains pixel (0,10) of the top border — the elliptical 5×5
closing (erosion unconstrained outside the image) grows the kept region
onto the border, so "no border-touching region is ever included in the
final garment mask" fails there. -/
theorem C1_counterexample :
    (garmentMaskBB true exC1Img 245 30 (mkRat 3 10)).testBit 10 = true ∧
    (borderBB 32 32).testBit 10 = true := by
  refine ⟨by decide, by decide⟩

/-- C1 witness: the 2×2 component of `candW` on a 4×4 grid instantiates
the filter characterization (its area 4 is not above 500, and indeed it
is not included in the step-5 mask). -/
theorem C1_region_filter_witness :
    (subBB (reachBB true 4 4 candW 5) (garmentStep5 true 4 4 candW) ↔
      (500 < areaBB (4 * 4) (reachBB true 4 4 candW 5) ∧
        reachBB true 4 4 candW 5 &&& borderBB 4 4 = 0))
  ∧ (∀ (img : Img) (wt cv : Nat) (sp : ℚ) (j : Nat), wfImg img →
      (garmentMaskBB false img wt cv sp).testBit j = true →
      (borderBB img.h img.w).testBit j = false) :=
  C1_region_filter true 4 4 candW (reachBB true 4 4 candW 5) (by decide) (by decide)
    ⟨5, by decide, by decide, rfl⟩

/-- C3 witness: the all-gray 8×8 image has an empty mask on the fallback
path; the call succeeds, returns the image unchanged and reports 0. -/
theorem C3_empty_mask_witness :
    (universal_garment_colorizer false exSmallImg (some "#FF0000") 245 30 (mkRat 3 10)
        none).success = true ∧
    (universal_garment_colorizer false exSmallImg (some "#FF0000") 245 30 (mkRat 3 10)
        none).colorized_image = exSmallImg.pix ∧
    (universal_garment_colorizer false exSmallImg (some "#FF0000") 245 30 (mkRat 3 10)
        none).clothing_areas_detected = 0 :=
  C3_empty_mask false exSmallImg (some "#FF0000") 245 30 (mkRat 3 10) none
    (by decide) (by decide)

/-- C4 counterexample: on `ex4Img` with `element_colors = {straps:
"#000000", main: "#FF69B4"}`, pixel (5,5) lies in the garment mask and
in the straps region, yet the output there is the default gray blend
`(168,168,168)` — not the near-black `(0,0,0)` the spec expects —
because `parse_color('#000000')` is `None`. -/
theorem C4_counterexample :
    (garmentMaskBB false ex4Img 245 30 (mkRat 3 10)).testBit (5 * 32 + 5) = true ∧
    ((detect_garment_elements false 32 32
        (garmentMaskBB false ex4Img 245 30 (mkRat 3 10))).straps.map
          (fun m => m.testBit (5 * 32 + 5))) = some true ∧
    (universal_garment_colorizer false ex4Img none 245 30 (mkRat 3 10)
        (some { straps := some "#000000", main := some "#FF69B4" })).colorized_image.get?
        (5 * 32 + 5) = some (168, 168, 168) ∧
    recolorPix (0, 0, 0) (255, 255, 255) = (0, 0, 0) ∧
    ((168, 168, 168) : Pix) ≠ (0, 0, 0) := by
  refine ⟨by decide, by decide, by decide, by decide, by decide⟩

/-- C4 witness: priority law at a concrete, parseable straps color, and
the pipeline link on `ex4Img`. -/
theorem C4_element_priority_witness :
    get_pixel_color 0 0 5 { straps := some (bitBB 0) } { straps := some "#FF0000" }
        (1, 2, 3) = (255, 0, 0)
  ∧ parse_color (some "#000000") = none
  ∧ (universal_garment_colorizer false ex4Img none 245 30 (mkRat 3 10)
      (some { straps := some "#000000", main := some "#FF69B4" })).colorized_image.get?
        (5 * 32 + 5)
      = some (recolorPix (get_pixel_color ((5 * 32 + 5) % ex4Img.w) ((5 * 32 + 5) / ex4Img.w)
          ex4Img.w
          (detect_garment_elements false ex4Img.h ex4Img.w
            (garmentMaskBB false ex4Img 245 30 (mkRat 3 10)))
          { straps := some "#000000", main := some "#FF69B4" }
          (parse_target_color none)) (255, 255, 255)) :=
  C4_element_priority 0 0 5 { straps := some (bitBB 0) } { straps := some "#FF0000" }
    (1, 2, 3) (255, 0, 0) (bitBB 0) "#FF0000" false ex4Img none 245 30 (mkRat 3 10)
    { straps := some "#000000", main := some "#FF69B4" } (5 * 32 + 5) (255, 255, 255)
    rfl rfl (by decide) (by decide) (by decide) (by decide) (by decide) (by decide)

/-- C6 counterexample: the malformed 5-digit hex string `"#FFFFF"` does
not fall back to the default gray — Python slices pad nothing, so it
parses as `(int('FF',16), int('FF',16), int('F',16)) = (255,255,15)`. -/
theorem C6_counterexample :
    parse_target_color (some "#FFFFF") = (255, 255, 15) ∧
    ((255, 255, 15) : Int × Int × Int) ≠ (168, 168, 168) := by
  refine ⟨by decide, by decide⟩

/-- C6 witness: the parse laws at `#FF00Ab`, `rgb(1,2,3)` and `"blue"`,
and the default gray applied to masked pixel (10,10) of `ex2Img`. -/
theorem C6_target_parse_witness :
    parse_target_color (some ⟨['#', 'F', 'F', '0', '0', 'A', 'b']⟩) =
      (((16 * hexDigitVal 'F' + hexDigitVal 'F' : Nat) : Int),
       ((16 * hexDigitVal '0' + hexDigitVal '0' : Nat) : Int),
       ((16 * hexDigitVal 'A' + hexDigitVal 'b' : Nat) : Int))
  ∧ parse_target_color
      (some ⟨'r' :: 'g' :: 'b' :: '(' :: (['1'] ++ ',' :: (['2'] ++ ',' :: (['3'] ++ [')'])))⟩)
      = ((digitsToNat ['1'] : Int), (digitsToNat ['2'] : Int), (digitsToNat ['3'] : Int))
  ∧ parse_target_color (some "blue") = (168, 168, 168)
  ∧ parse_target_color none = (168, 168, 168)
  ∧ (universal_garment_colorizer false ex2Img none 245 30 (mkRat 3 10)
        none).colorized_image.get? 330
      = some (recolorPix (168, 168, 168) (254, 254, 254)) :=
  C6_target_parse 'F' 'F' '0' '0' 'A' 'b' ['1'] ['2'] ['3'] "blue" false ex2Img 245 30
    (mkRat 3 10) 330 (254, 254, 254) (by decide) (by decide) (by decide) (by decide)
    (by decide) (by decide) (by decide) (by decide) (by decide) (by decide) (by decide)
    (by decide) (by decide) (by decide) (by decide) (by decide) (by decide) (by decide)

/-- C8 counterexample: running the colorizer twice with `#FFFFFF` on the
250-gray sketch is not idempotent: pixel (10,10) goes 250 → 253 on the
first run and 253 → 254 on the second. -/
theorem C8_counterexample :
    (universal_garment_colorizer false ex8Img (some "#FFFFFF")).colorized_image.get? 330
      = some (253, 253, 253) ∧
    (universal_garment_colorizer false
        { h := 32, w := 32,
          pix := (universal_garment_colorizer false ex8Img (some "#FFFFFF")).colorized_image }
        (some "#FFFFFF")).colorized_image.get? 330 = some (254, 254, 254) ∧
    some ((253 : Nat), (253 : Nat), (253 : Nat)) ≠ some ((254 : Nat), (254 : Nat), (254 : Nat)) := by
  refine ⟨by decide, by decide, by decide⟩

/-- C8 witness: after recoloring `ex2Img` red, no pixel is white any
more, the second run's mask is empty, and the second output equals the
first. -/
theorem C8_idempotent_witness :
    (universal_garment_colorizer false
      { h := ex2Img.h, w := ex2Img.w,
        pix := (universal_garment_colorizer false ex2Img (some "#FF0000") 245 30
          (mkRat 3 10) none).colorized_image }
      (some "#FF0000") 245 30 (mkRat 3 10) none).colorized_image
    = (universal_garment_colorizer false ex2Img (some "#FF0000") 245 30 (mkRat 3 10)
        none).colorized_image :=
  C8_idempotent false ex2Img (some "#FF0000") 245 30 (mkRat 3 10) none (by decide) (by decide)

/-- C9 counterexample: the trigger fires for a `'corset'` garment type
(not only for bodysuit categories), and at image width 20 the zeroed
zone spans x ∈ [9, 11) — 2 columns, not the 3 columns of a centered
15%-wide rectangle: x = 11 at row 14 lies inside the claimed rectangle
[9, 12) but outside the mask. -/
theorem C9_counterexample :
    intimate_trigger { garment_type := "Corset Top", category := "top" } = true ∧
    intimate_x_end 20 - intimate_x_start 20 = 2 ∧
    (intimate_mask true 20 20).testBit (14 * 20 + 11) = false ∧
    14 * 20 + 11 < 20 * 20 ∧ intimate_bottom_y 20 ≤ 14 ∧ 14 < intimate_y_end 20 ∧
    intimate_x_start 20 = 9 ∧ 9 ≤ 11 ∧ 11 < 9 + 3 ∧ 15 * 20 / 100 = 3 := by
  refine ⟨by decide, by decide, by decide, by decide, by decide, by decide, by decide,
    by decide, by decide, by decide⟩

/-- C9 witness: the intimate-zone law at a 100×100 full mask. -/
theorem C9_intimate_zone_witness :
    clothing_mask 20 20 (fullBB 20 20) 0
        (intimate_trigger { garment_type := "shirt", category := "top" })
      = diffBB 20 20 (fullBB 20 20) 0
  ∧ ((intimate_mask true 20 20).testBit (14 * 20 + 10) = true ↔
      (65 * 20 / 100 ≤ (14 * 20 + 10) / 20 ∧
       (14 * 20 + 10) / 20 < min 20 (65 * 20 / 100 + 20 * 20 / 100) ∧
       20 / 2 - (15 * 20 / 100) / 2 ≤ (14 * 20 + 10) % 20 ∧
       (14 * 20 + 10) % 20 < min 20 (20 / 2 + (15 * 20 / 100) / 2)))
  ∧ ((clothing_mask 20 20 (fullBB 20 20) 0 true).testBit (14 * 20 + 10) =
      (((fullBB 20 20).testBit (14 * 20 + 10) && !((0 : Nat).testBit (14 * 20 + 10))) &&
        !((intimate_mask true 20 20).testBit (14 * 20 + 10)))) :=
  ⟨(C9_intimate_zone ⟨"shirt", "top"⟩ 20 20 (fullBB 20 20) 0 (14 * 20 + 10)
      (fullBB_lt 20 20) (by decide)).1 (by decide),
   (C9_intimate_zone ⟨"shirt", "top"⟩ 20 20 (fullBB 20 20) 0 (14 * 20 + 10)
      (fullBB_lt 20 20) (by decide)).2.1,
   (C9_intimate_zone ⟨"shirt", "top"⟩ 20 20 (fullBB 20 20) 0 (14 * 20 + 10)
      (fullBB_lt 20 20) (by decide)).2.2⟩

/-- C10 witness: an unmasked pixel of the all-gray image is returned
unchanged. -/
theorem C10_frame_witness :
    (universal_garment_colorizer false exSmallImg (some "#00FF00") 245 30 (mkRat 3 10)
        none).colorized_image.get? 5 = some (150, 150, 150) :=
  C10_frame false exSmallImg (some "#00FF00") 245 30 (mkRat 3 10) none 5 (150, 150, 150)
    (by decide) (by decide)

end PV
